import Mathlib

/-!
Verification development for the news-credibility service
(`backend/preprocessing.py`, `backend/scrapper.py`, `backend/app.py`).

Text is modelled as `List Char` (Python `str` as a sequence of code points).
The regex substitutions of `basic_clean` are modelled by recursive scanners
that mirror `re.sub`'s leftmost, advance-on-failure semantics; they are
written with an explicit fuel argument (fuel = length of the input, always
sufficient) so they are structurally recursive and evaluate by `rfl`/`decide`.
The network and the pickled classifier are modelled as oracle parameters:
the code treats them as opaque, deterministic-per-request functions.
-/

/-- ASCII whitespace, modelling Python's `\s` / `str.split()` / `str.strip()`
whitespace class on the characters that occur here. -/
def pyIsSpace (c : Char) : Bool :=
  c = ' ' || c = '\t' || c = '\n' || c = '\r' || c = '\x0b' || c = '\x0c'

/-- Negation of `pyIsSpace`, modelling `\S`. -/
def notSpace (c : Char) : Bool := !pyIsSpace c

/-- One match attempt of the pattern `http\S+|www\S+|https\S+` at the head of
`l` (from `re.sub(r"http\S+|www\S+|https\S+", " ", text)` in `basic_clean`).
The alternation is leftmost: `http\S+` is tried first, so the `https\S+`
branch can never fire (it is subsumed).  `\S+` is greedy and needs at least
one non-space character.  On success, returns the remainder after the match. -/
def matchUrlAt (l : List Char) : Option (List Char) :=
  if l.take 4 = ['h', 't', 't', 'p'] then
    if (l.drop 4).takeWhile notSpace = [] then none
    else some ((l.drop 4).drop ((l.drop 4).takeWhile notSpace).length)
  else if l.take 3 = ['w', 'w', 'w'] then
    if (l.drop 3).takeWhile notSpace = [] then none
    else some ((l.drop 3).drop ((l.drop 3).takeWhile notSpace).length)
  else none

/-- Fuelled scanner for `re.sub(r"http\S+|www\S+|https\S+", " ", text)`:
each match is replaced by a single space, scanning resumes after the match;
on failure the scanner advances one character. -/
def stripUrlsAux : Nat → List Char → List Char
  | 0, l => l
  | _ + 1, [] => []
  | fuel + 1, c :: cs =>
    match matchUrlAt (c :: cs) with
    | some rest => ' ' :: stripUrlsAux fuel rest
    | none => c :: stripUrlsAux fuel cs

/-- `re.sub(r"http\S+|www\S+|https\S+", " ", text)` from `basic_clean`. -/
def stripUrls (l : List Char) : List Char := stripUrlsAux l.length l

/-- Scan for the first `>` not preceded by a newline, for the lazy pattern
`<.*?>` (`.` does not match `\n`).  Returns the remainder after the `>`. -/
def findGt : List Char → Option (List Char)
  | [] => none
  | c :: cs => if c = '>' then some cs else if c = '\n' then none else findGt cs

/-- Fuelled scanner for `re.sub(r"<.*?>", " ", text)`: at a `<`, the lazy
body runs to the first following `>` (failing at a newline or end of input);
a match is replaced by a single space. -/
def stripTagsAux : Nat → List Char → List Char
  | 0, l => l
  | _ + 1, [] => []
  | fuel + 1, c :: cs =>
    if c = '<' then
      match findGt cs with
      | some rest => ' ' :: stripTagsAux fuel rest
      | none => c :: stripTagsAux fuel cs
    else c :: stripTagsAux fuel cs

/-- `re.sub(r"<.*?>", " ", text)` from `basic_clean`. -/
def stripTags (l : List Char) : List Char := stripTagsAux l.length l

/-- `re.sub(r"[^a-zA-Z\s]", " ", text)` from `basic_clean`: every character
that is not an ASCII letter and not whitespace becomes a single space. -/
def replaceNonAlpha (l : List Char) : List Char :=
  l.map fun c => if c.isAlpha || pyIsSpace c then c else ' '

/-- Fuelled scanner for `re.sub(r"\s+", " ", text)`: each maximal run of
whitespace is replaced by a single space. -/
def collapseWsAux : Nat → List Char → List Char
  | 0, l => l
  | _ + 1, [] => []
  | fuel + 1, c :: cs =>
    if pyIsSpace c then ' ' :: collapseWsAux fuel (cs.dropWhile pyIsSpace)
    else c :: collapseWsAux fuel cs

/-- `re.sub(r"\s+", " ", text)` from `basic_clean`. -/
def collapseWs (l : List Char) : List Char := collapseWsAux l.length l

/-- Python `str.strip()`: drop whitespace from both ends. -/
def pyStrip (l : List Char) : List Char :=
  ((l.dropWhile pyIsSpace).reverse.dropWhile pyIsSpace).reverse

/-- Fuelled model of Python `str.split()` (no separator argument): split on
runs of whitespace, discarding empty pieces. -/
def pySplitAux : Nat → List Char → List (List Char)
  | 0, _ => []
  | _ + 1, [] => []
  | fuel + 1, c :: cs =>
    if pyIsSpace c then pySplitAux fuel cs
    else (c :: cs.takeWhile notSpace) :: pySplitAux fuel (cs.dropWhile notSpace)

/-- Python `str.split()` with no argument. -/
def pySplit (l : List Char) : List (List Char) := pySplitAux l.length l

/-- Python `" ".join(words)`. -/
def unwords : List (List Char) → List Char
  | [] => []
  | [w] => w
  | w :: ws => w ++ ' ' :: unwords ws

/-- `basic_clean` from `preprocessing.py`: lowercase, strip URLs, strip HTML
tags, replace non-letters by spaces, collapse whitespace and trim.  (The
`isinstance` guard is vacuous in this typed embedding: the argument is
always a string.) -/
def basic_clean (text : List Char) : List Char :=
  pyStrip (collapseWs (replaceNonAlpha (stripTags (stripUrls (text.map Char.toLower)))))

/-- The apostrophe character, `Char.ofNat 39`. -/
def apos : Char := Char.ofNat 39

/-- Build a contracted stopword such as `don't` from its two halves. -/
def cw (a b : String) : List Char := a.toList ++ apos :: b.toList

/-- The NLTK English stopword set (`stopwords.words("english")`, 179 words)
loaded at module import in `preprocessing.py`.  Python keeps it as a `set`;
only membership matters, so a list is a faithful model. -/
def STOP_WORDS : List (List Char) :=
  (["i", "me", "my", "myself", "we", "our", "ours", "ourselves", "you"].map String.toList) ++
  [cw "you" "re", cw "you" "ve", cw "you" "ll", cw "you" "d"] ++
  (["your", "yours", "yourself", "yourselves", "he", "him", "his", "himself",
    "she"].map String.toList) ++ [cw "she" "s"] ++
  (["her", "hers", "herself", "it"].map String.toList) ++ [cw "it" "s"] ++
  (["its", "itself", "they", "them", "their", "theirs", "themselves", "what",
    "which", "who", "whom", "this", "that"].map String.toList) ++ [cw "that" "ll"] ++
  (["these", "those", "am", "is", "are", "was", "were", "be", "been", "being",
    "have", "has", "had", "having", "do", "does", "did", "doing", "a", "an",
    "the", "and", "but", "if", "or", "because", "as", "until", "while", "of",
    "at", "by", "for", "with", "about", "against", "between", "into",
    "through", "during", "before", "after", "above", "below", "to", "from",
    "up", "down", "in", "out", "on", "off", "over", "under", "again",
    "further", "then", "once", "here", "there", "when", "where", "why", "how",
    "all", "any", "both", "each", "few", "more", "most", "other", "some",
    "such", "no", "nor", "not", "only", "own", "same", "so", "than", "too",
    "very", "s", "t", "can", "will", "just", "don"].map String.toList) ++
  [cw "don" "t"] ++ (["should"].map String.toList) ++ [cw "should" "ve"] ++
  (["now", "d", "ll", "m", "o", "re", "ve", "y", "ain", "aren"].map String.toList) ++
  [cw "aren" "t"] ++ (["couldn"].map String.toList) ++ [cw "couldn" "t"] ++
  (["didn"].map String.toList) ++ [cw "didn" "t"] ++
  (["doesn"].map String.toList) ++ [cw "doesn" "t"] ++
  (["hadn"].map String.toList) ++ [cw "hadn" "t"] ++
  (["hasn"].map String.toList) ++ [cw "hasn" "t"] ++
  (["haven"].map String.toList) ++ [cw "haven" "t"] ++
  (["isn"].map String.toList) ++ [cw "isn" "t"] ++
  (["ma", "mightn"].map String.toList) ++ [cw "mightn" "t"] ++
  (["mustn"].map String.toList) ++ [cw "mustn" "t"] ++
  (["needn"].map String.toList) ++ [cw "needn" "t"] ++
  (["shan"].map String.toList) ++ [cw "shan" "t"] ++
  (["shouldn"].map String.toList) ++ [cw "shouldn" "t"] ++
  (["wasn"].map String.toList) ++ [cw "wasn" "t"] ++
  (["weren"].map String.toList) ++ [cw "weren" "t"] ++
  (["won"].map String.toList) ++ [cw "won" "t"] ++
  (["wouldn"].map String.toList) ++ [cw "wouldn" "t"]

/-- `remove_stopwords` from `preprocessing.py`: split on whitespace, drop
words in the stopword set, rejoin with single spaces. -/
def remove_stopwords (text : List Char) : List Char :=
  if text = [] then []
  else unwords ((pySplit text).filter fun w => !STOP_WORDS.contains w)

/-- `preprocess_text` from `preprocessing.py`: basic cleaning, then stopword
removal (the `isinstance` guard is vacuous in the typed embedding). -/
def preprocess_text (text : List Char) : List Char :=
  if text = [] then []
  else remove_stopwords (basic_clean text)

/-- `validate_input_text` from `preprocessing.py`: non-empty and trimmed
length at least `min_length` (default 20). -/
def validate_input_text (text : List Char) (min_length : Nat := 20) : Bool :=
  if text = [] then false
  else if (pyStrip text).length < min_length then false
  else true

/-- Oracle for the network-facing effects of `extract_text_from_url`:
`response url` is the status code of `requests.get` (`none` models a raised
network error or timeout), and `article url` is the `(title, text)` pair
produced by `newspaper.Article` (`none` models a download/parse exception;
the code's `if article.title else ""` defaults are folded into the strings). -/
structure Network where
  response : List Char → Option Nat
  article : List Char → Option (List Char × List Char)

/-- `extract_text_from_url` from `scrapper.py`: empty/invalid URL fails fast;
non-200 status, any exception, or combined title+body shorter than 50
characters yields the empty string; otherwise the trimmed
`f"{title} {text}"` concatenation is returned. -/
def extract_text_from_url (net : Network) (url : List Char) : List Char :=
  if url = [] then []
  else
    match net.response url with
    | none => []
    | some status =>
      if status ≠ 200 then []
      else
        match net.article url with
        | none => []
        | some (title, text) =>
          let full_text := pyStrip (title ++ ' ' :: text)
          if full_text.length < 50 then [] else full_text

/-- Request schema of the `/predict` endpoint (`NewsRequest` in `app.py`);
both fields default to the empty string. -/
structure NewsRequest where
  text : List Char := []
  url : List Char := []

/-- An HTTP error raised via `HTTPException` in `app.py`. -/
structure HttpError where
  status_code : Nat
  detail : String
deriving DecidableEq

/-- Oracle for the pickled model: `predictClass` is
`model.predict(vectorizer.transform([cleaned]))[0]` and `predictProba` is
`model.predict_proba(vectorizer.transform([cleaned]))[0]`, both deterministic
functions of the cleaned text (the vectorizer only ever transforms). -/
structure ModelOracle where
  predictClass : List Char → Int
  predictProba : List Char → List Rat

/-- `np.max` over the probability row.  (`np.max` raises on an empty array;
a fitted classifier always reports at least one class, and theorems that
need it carry a non-emptiness hypothesis.) -/
def npMax : List Rat → Rat
  | [] => 0
  | h :: t => t.foldl max h

/-- Round-half-to-even on an exact rational, modelling Python 3 `round` on
the (here idealized as exact) float value. -/
def roundHalfEven (x : Rat) : Int :=
  if x - ⌊x⌋ < 1 / 2 then ⌊x⌋
  else if 1 / 2 < x - ⌊x⌋ then ⌊x⌋ + 1
  else if ⌊x⌋ % 2 = 0 then ⌊x⌋ else ⌊x⌋ + 1

/-- Python `round(x, 2)`: round to two decimal places. -/
def pyRound2 (x : Rat) : Rat := (roundHalfEven (x * 100) : Rat) / 100

/-- Python `str` of an integer class code. -/
def intStr (n : Int) : List Char := (toString n).toList

/-- `label_map.get(int(prediction), str(prediction))` from `app.py`:
`0 ↦ "Fake News"`, `1 ↦ "Real News"`, any other code passes through as its
decimal string form. -/
def label_map_get (prediction : Int) : List Char :=
  if prediction = 0 then ("Fake News").toList
  else if prediction = 1 then ("Real News").toList
  else intStr prediction

/-- Successful response body of `/predict` (step 7 of `predict_news`). -/
structure PredictResponse where
  status : String
  prediction : List Char
  confidence_score : Rat
  input_source : String
  text_length : Nat
  message : String
deriving DecidableEq

/-- Steps 2–7 of `predict_news` (shared by the URL and direct-text paths
after the raw text has been chosen): length validation, preprocessing,
vectorize+predict, label mapping, response assembly. -/
def predictCore (M : ModelOracle) (raw_text : List Char) (source : String) :
    Except HttpError PredictResponse :=
  if !validate_input_text raw_text 20 then
    Except.error ⟨400, "Input text is too short or invalid for analysis."⟩
  else
    let cleaned_text := preprocess_text raw_text
    if cleaned_text = [] then
      Except.error ⟨400, "Text preprocessing resulted in empty content."⟩
    else
      Except.ok
        { status := "success"
          prediction := label_map_get (M.predictClass cleaned_text)
          confidence_score := pyRound2 (npMax (M.predictProba cleaned_text) * 100)
          input_source := source
          text_length := raw_text.length
          message := "Credibility analysis completed successfully." }

/-- `predict_news` from `app.py`: trim both fields, choose the URL path when
the trimmed URL is non-empty (direct text otherwise), fail 400 when neither
is given or extraction yields nothing, then run the shared pipeline. -/
def predict_news (net : Network) (M : ModelOracle) (request : NewsRequest) :
    Except HttpError PredictResponse :=
  let user_text := pyStrip request.text
  let user_url := pyStrip request.url
  if user_url ≠ [] then
    let extracted_text := extract_text_from_url net user_url
    if extracted_text = [] then
      Except.error ⟨400, "Unable to extract valid article content from the provided URL."⟩
    else
      predictCore M extracted_text ("url")
  else if user_text ≠ [] then
    predictCore M user_text ("text")
  else
    Except.error ⟨400, "Please provide either news text or a valid URL."⟩

/-- The raw text `predict_news` feeds to validation/preprocessing, as a
function of the request: the extracted article on the URL path, the trimmed
direct text otherwise. -/
def chosenRaw (net : Network) (request : NewsRequest) : List Char :=
  if pyStrip request.url ≠ [] then extract_text_from_url net (pyStrip request.url)
  else pyStrip request.text


/-- A position at which the pattern `http\S+|www\S+|https\S+` matches: the
text begins with `http` or `www` followed by at least one further
non-whitespace character. -/
def urlHit (t : List Char) : Prop :=
  (∃ c, t.take 5 = ['h', 't', 't', 'p', c] ∧ notSpace c) ∨
  (∃ c, t.take 4 = ['w', 'w', 'w', c] ∧ notSpace c)

/-- No suffix of `t` is a match position of the URL pattern, i.e.
`re.sub(r"http\S+|www\S+|https\S+", " ", ·)` finds nothing in `t`. -/
def urlSafe (t : List Char) : Prop := ∀ t', t' <:+ t → ¬urlHit t'

/-- Every whitespace-delimited word of `t` is free of URL-pattern matches. -/
def wordSafe (t : List Char) : Prop := ∀ w ∈ pySplit t, urlSafe w

/-- Characters that may appear in `basic_clean` output: lowercase ASCII
letters and the plain space. -/
def lowerOrSpace (c : Char) : Prop := ('a' ≤ c ∧ c ≤ 'z') ∨ c = ' '

/-- A constant network oracle, for concrete test scenarios. -/
def netConst (s : Option Nat) (a : Option (List Char × List Char)) : Network :=
  ⟨fun _ => s, fun _ => a⟩

/-- A constant classifier oracle, for concrete test scenarios. -/
def modelConst (c : Int) (probs : List Rat) : ModelOracle :=
  ⟨fun _ => c, fun _ => probs⟩

/-- A network oracle for a healthy fetch: status 200 and a parsed article. -/
def wNet : Network :=
  netConst (some 200)
    (some (("Title").toList,
      ("this is a long enough article body to pass the fifty character minimum check").toList))

/-- A network oracle for a fetch that returns HTTP 404. -/
def wBadNet : Network := netConst (some 404) none

/-- A classifier oracle reporting class 1 with probabilities 0.87/0.13. -/
def wModel : ModelOracle := modelConst 1 [(87 : Rat) / 100, (13 : Rat) / 100]

/-- A direct-text input above the length threshold with non-stopword words. -/
def wText : List Char := ("government officials announced new policy today").toList

/-- A URL input for the test scenarios. -/
def wUrl : List Char := ("http://example.com").toList

/-- The response produced for the direct-text scenario `wText` under the
`wModel` classifier. -/
def wResp : PredictResponse :=
  { status := "success"
    prediction := label_map_get (wModel.predictClass (preprocess_text (pyStrip wText)))
    confidence_score := pyRound2 (npMax (wModel.predictProba (preprocess_text (pyStrip wText))) * 100)
    input_source := "text"
    text_length := (pyStrip wText).length
    message := "Credibility analysis completed successfully." }

/-! ### Fuel adequacy and unfolding equations for the regex scanners -/

theorem matchUrlAt_some_length {l r : List Char} (h : matchUrlAt l = some r) :
    r.length < l.length := by
  unfold matchUrlAt at h
  split at h
  · next h4 =>
    have hlen : l.length ≥ 4 := by
      have := congrArg List.length h4
      simp [List.length_take] at this
      omega
    split at h
    · exact absurd h (by simp)
    · next htok =>
      have htl : 1 ≤ ((l.drop 4).takeWhile notSpace).length :=
        List.length_pos.mpr htok
      simp only [Option.some.injEq] at h
      subst h
      simp only [List.length_drop]
      omega
  · split at h
    · next h3 =>
      have hlen : l.length ≥ 3 := by
        have := congrArg List.length h3
        simp [List.length_take] at this
        omega
      split at h
      · exact absurd h (by simp)
      · next htok =>
        have htl : 1 ≤ ((l.drop 3).takeWhile notSpace).length :=
          List.length_pos.mpr htok
        simp only [Option.some.injEq] at h
        subst h
        simp only [List.length_drop]
        omega
    · exact absurd h (by simp)

theorem stripUrlsAux_nil (n : Nat) : stripUrlsAux n [] = [] := by
  cases n <;> rfl

theorem stripUrlsAux_congr :
    ∀ (n m : Nat) (l : List Char), l.length ≤ n → l.length ≤ m →
      stripUrlsAux n l = stripUrlsAux m l := by
  intro n
  induction n with
  | zero =>
    intro m l hn _
    have : l = [] := List.length_eq_zero.mp (Nat.le_zero.mp hn)
    subst this
    simp [stripUrlsAux_nil]
  | succ n ih =>
    intro m l hn hm
    cases l with
    | nil => simp [stripUrlsAux_nil]
    | cons c cs =>
      cases m with
      | zero => simp at hm
      | succ m =>
        cases hmat : matchUrlAt (c :: cs) with
        | some rest =>
          have hr := matchUrlAt_some_length hmat
          simp only [List.length_cons] at hn hm hr
          simp only [stripUrlsAux, hmat]
          rw [ih m rest (by omega) (by omega)]
        | none =>
          simp only [List.length_cons] at hn hm
          simp only [stripUrlsAux, hmat]
          rw [ih m cs (by omega) (by omega)]

theorem stripUrls_nil : stripUrls [] = [] := rfl

theorem stripUrls_cons_some {c : Char} {cs rest : List Char}
    (h : matchUrlAt (c :: cs) = some rest) :
    stripUrls (c :: cs) = ' ' :: stripUrls rest := by
  have hr := matchUrlAt_some_length h
  simp only [List.length_cons] at hr
  show stripUrlsAux (c :: cs).length (c :: cs) = _
  simp only [List.length_cons, stripUrlsAux, h]
  rw [stripUrlsAux_congr cs.length rest.length rest (by omega) le_rfl]
  rfl

theorem stripUrls_cons_none {c : Char} {cs : List Char}
    (h : matchUrlAt (c :: cs) = none) :
    stripUrls (c :: cs) = c :: stripUrls cs := by
  show stripUrlsAux (c :: cs).length (c :: cs) = _
  simp only [List.length_cons, stripUrlsAux, h]
  rfl

theorem findGt_some_length {l r : List Char} (h : findGt l = some r) :
    r.length < l.length := by
  induction l with
  | nil => simp [findGt] at h
  | cons c cs ih =>
    simp only [findGt] at h
    split at h
    · simp only [Option.some.injEq] at h
      subst h
      simp
    · split at h
      · simp at h
      · have := ih h
        simp only [List.length_cons]
        omega

theorem stripTagsAux_nil (n : Nat) : stripTagsAux n [] = [] := by
  cases n <;> rfl

theorem stripTagsAux_congr :
    ∀ (n m : Nat) (l : List Char), l.length ≤ n → l.length ≤ m →
      stripTagsAux n l = stripTagsAux m l := by
  intro n
  induction n with
  | zero =>
    intro m l hn _
    have : l = [] := List.length_eq_zero.mp (Nat.le_zero.mp hn)
    subst this
    simp [stripTagsAux_nil]
  | succ n ih =>
    intro m l hn hm
    cases l with
    | nil => simp [stripTagsAux_nil]
    | cons c cs =>
      cases m with
      | zero => simp at hm
      | succ m =>
        by_cases hc : c = '<'
        · cases hg : findGt cs with
          | some rest =>
            have hr := findGt_some_length hg
            simp only [List.length_cons] at hn hm
            simp only [stripTagsAux, if_pos hc, hg]
            rw [ih m rest (by omega) (by omega)]
          | none =>
            simp only [List.length_cons] at hn hm
            simp only [stripTagsAux, if_pos hc, hg]
            rw [ih m cs (by omega) (by omega)]
        · simp only [List.length_cons] at hn hm
          simp only [stripTagsAux, if_neg hc]
          rw [ih m cs (by omega) (by omega)]

theorem stripTags_nil : stripTags [] = [] := rfl

theorem stripTags_cons_some {c : Char} {cs rest : List Char}
    (hc : c = '<') (h : findGt cs = some rest) :
    stripTags (c :: cs) = ' ' :: stripTags rest := by
  have hr := findGt_some_length h
  show stripTagsAux (c :: cs).length (c :: cs) = _
  simp only [List.length_cons, stripTagsAux, if_pos hc, h]
  rw [stripTagsAux_congr cs.length rest.length rest (by omega) le_rfl]
  rfl

theorem stripTags_cons_keep {c : Char} {cs : List Char}
    (h : c ≠ '<' ∨ findGt cs = none) :
    stripTags (c :: cs) = c :: stripTags cs := by
  show stripTagsAux (c :: cs).length (c :: cs) = _
  by_cases hc : c = '<'
  · rcases h with h | h
    · exact absurd hc h
    · simp only [List.length_cons, stripTagsAux, if_pos hc, h]
      rfl
  · simp only [List.length_cons, stripTagsAux, if_neg hc]
    rfl

theorem collapseWsAux_nil (n : Nat) : collapseWsAux n [] = [] := by
  cases n <;> rfl

theorem collapseWsAux_congr :
    ∀ (n m : Nat) (l : List Char), l.length ≤ n → l.length ≤ m →
      collapseWsAux n l = collapseWsAux m l := by
  intro n
  induction n with
  | zero =>
    intro m l hn _
    have : l = [] := List.length_eq_zero.mp (Nat.le_zero.mp hn)
    subst this
    simp [collapseWsAux_nil]
  | succ n ih =>
    intro m l hn hm
    cases l with
    | nil => simp [collapseWsAux_nil]
    | cons c cs =>
      cases m with
      | zero => simp at hm
      | succ m =>
        by_cases hc : pyIsSpace c
        · have hd : (cs.dropWhile pyIsSpace).length ≤ cs.length :=
            (List.dropWhile_sublist pyIsSpace).length_le
          simp only [List.length_cons] at hn hm
          simp only [collapseWsAux, if_pos hc]
          rw [ih m (cs.dropWhile pyIsSpace) (by omega) (by omega)]
        · simp only [List.length_cons] at hn hm
          simp only [collapseWsAux, if_neg hc]
          rw [ih m cs (by omega) (by omega)]

theorem collapseWs_nil : collapseWs [] = [] := rfl

theorem collapseWs_cons_space {c : Char} {cs : List Char} (hc : pyIsSpace c) :
    collapseWs (c :: cs) = ' ' :: collapseWs (cs.dropWhile pyIsSpace) := by
  show collapseWsAux (c :: cs).length (c :: cs) = _
  simp only [List.length_cons, collapseWsAux, if_pos hc]
  have hd : (cs.dropWhile pyIsSpace).length ≤ cs.length :=
    (List.dropWhile_sublist pyIsSpace).length_le
  rw [collapseWsAux_congr cs.length (cs.dropWhile pyIsSpace).length _ hd le_rfl]
  rfl

theorem collapseWs_cons_keep {c : Char} {cs : List Char} (hc : ¬pyIsSpace c) :
    collapseWs (c :: cs) = c :: collapseWs cs := by
  show collapseWsAux (c :: cs).length (c :: cs) = _
  simp only [List.length_cons, collapseWsAux, if_neg hc]
  rfl

theorem pySplitAux_nil (n : Nat) : pySplitAux n [] = [] := by
  cases n <;> rfl

theorem pySplitAux_congr :
    ∀ (n m : Nat) (l : List Char), l.length ≤ n → l.length ≤ m →
      pySplitAux n l = pySplitAux m l := by
  intro n
  induction n with
  | zero =>
    intro m l hn _
    have : l = [] := List.length_eq_zero.mp (Nat.le_zero.mp hn)
    subst this
    simp [pySplitAux_nil]
  | succ n ih =>
    intro m l hn hm
    cases l with
    | nil => simp [pySplitAux_nil]
    | cons c cs =>
      cases m with
      | zero => simp at hm
      | succ m =>
        by_cases hc : pyIsSpace c
        · simp only [List.length_cons] at hn hm
          simp only [pySplitAux, if_pos hc]
          rw [ih m cs (by omega) (by omega)]
        · have hd : (cs.dropWhile notSpace).length ≤ cs.length :=
            (List.dropWhile_sublist notSpace).length_le
          simp only [List.length_cons] at hn hm
          simp only [pySplitAux, if_neg hc]
          rw [ih m (cs.dropWhile notSpace) (by omega) (by omega)]

theorem pySplit_nil : pySplit [] = [] := rfl

theorem pySplit_cons_space {c : Char} {cs : List Char} (hc : pyIsSpace c) :
    pySplit (c :: cs) = pySplit cs := by
  show pySplitAux (c :: cs).length (c :: cs) = _
  simp only [List.length_cons, pySplitAux, if_pos hc]
  rfl

theorem pySplit_cons_word {c : Char} {cs : List Char} (hc : ¬pyIsSpace c) :
    pySplit (c :: cs) =
      (c :: cs.takeWhile notSpace) :: pySplit (cs.dropWhile notSpace) := by
  show pySplitAux (c :: cs).length (c :: cs) = _
  simp only [List.length_cons, pySplitAux, if_neg hc]
  have hd : (cs.dropWhile notSpace).length ≤ cs.length :=
    (List.dropWhile_sublist notSpace).length_le
  rw [pySplitAux_congr cs.length (cs.dropWhile notSpace).length _ hd le_rfl]
  rfl

/-! ### Generic list and trimming helpers -/

theorem mem_of_mem_takeWhile {p : Char → Bool} {l : List Char} {c : Char}
    (h : c ∈ l.takeWhile p) : c ∈ l :=
  (List.takeWhile_sublist p).mem h

theorem dropWhile_head?_false {p : Char → Bool} {l : List Char} {c : Char}
    (h : (l.dropWhile p).head? = some c) : p c = false := by
  have hh := List.head?_dropWhile_not p l
  rw [h] at hh
  exact hh

theorem dropWhile_eq_self_of_head {p : Char → Bool} {l : List Char}
    (h : ∀ c, l.head? = some c → p c = false) : l.dropWhile p = l := by
  cases l with
  | nil => rfl
  | cons c cs =>
    rw [List.dropWhile_cons, if_neg]
    simp [h c rfl]

theorem getLast?_of_suffix {l t : List Char} (h : l <:+ t) (hne : l ≠ []) :
    t.getLast? = l.getLast? := by
  obtain ⟨pre, rfl⟩ := h
  rw [List.getLast?_append]
  have : l.getLast?.isSome := List.getLast?_isSome.mpr hne
  cases hl : l.getLast? with
  | none => rw [hl] at this; simp at this
  | some a => simp

theorem pyStrip_head?_false {l : List Char} {c : Char}
    (h : (pyStrip l).head? = some c) : pyIsSpace c = false := by
  unfold pyStrip at h
  rw [List.head?_reverse] at h
  have hne : (l.dropWhile pyIsSpace).reverse.dropWhile pyIsSpace ≠ [] := by
    intro he
    rw [he] at h
    simp at h
  have hsfx := List.dropWhile_suffix (l := (l.dropWhile pyIsSpace).reverse) pyIsSpace
  have := getLast?_of_suffix hsfx hne
  rw [← this, List.getLast?_reverse] at h
  exact dropWhile_head?_false h

theorem pyStrip_getLast?_false {l : List Char} {c : Char}
    (h : (pyStrip l).getLast? = some c) : pyIsSpace c = false := by
  unfold pyStrip at h
  rw [List.getLast?_reverse] at h
  exact dropWhile_head?_false h

theorem pyStrip_eq_self {l : List Char}
    (hh : ∀ c, l.head? = some c → pyIsSpace c = false)
    (hl : ∀ c, l.getLast? = some c → pyIsSpace c = false) :
    pyStrip l = l := by
  unfold pyStrip
  rw [dropWhile_eq_self_of_head hh]
  rw [dropWhile_eq_self_of_head (by
    intro c hc
    rw [List.head?_reverse] at hc
    exact hl c hc)]
  exact List.reverse_reverse l

theorem pyStrip_idem (l : List Char) : pyStrip (pyStrip l) = pyStrip l :=
  pyStrip_eq_self (fun _ h => pyStrip_head?_false h) (fun _ h => pyStrip_getLast?_false h)

/-! ### Rounding and maximum-probability bounds -/

theorem roundHalfEven_nonneg {x : Rat} (hx : 0 ≤ x) : 0 ≤ roundHalfEven x := by
  unfold roundHalfEven
  have h0 : (0 : Int) ≤ ⌊x⌋ := Int.floor_nonneg.mpr hx
  split_ifs <;> omega

theorem roundHalfEven_le {x : Rat} {B : Int} (hx : x ≤ B) : roundHalfEven x ≤ B := by
  unfold roundHalfEven
  have hfl : ⌊x⌋ ≤ B := by
    have := Int.floor_le_floor hx
    rwa [Int.floor_intCast] at this
  have hfx : (⌊x⌋ : Rat) ≤ x := Int.floor_le x
  split_ifs with h1 h2 h3
  · exact hfl
  · have hlt : (⌊x⌋ : Rat) < (B : Rat) := by
      push_neg at h1
      linarith
    have : ⌊x⌋ < B := by exact_mod_cast hlt
    omega
  · exact hfl
  · push_neg at h1 h2
    have heq : x - ⌊x⌋ = 1 / 2 := le_antisymm h2 h1
    have hlt : (⌊x⌋ : Rat) < (B : Rat) := by linarith
    have : ⌊x⌋ < B := by exact_mod_cast hlt
    omega

theorem pyRound2_bounds {x : Rat} (h0 : 0 ≤ x) (h1 : x ≤ 100) :
    0 ≤ pyRound2 x ∧ pyRound2 x ≤ 100 := by
  unfold pyRound2
  have hlo : (0 : Int) ≤ roundHalfEven (x * 100) := roundHalfEven_nonneg (by linarith)
  have hhi : roundHalfEven (x * 100) ≤ (10000 : Int) := by
    apply roundHalfEven_le
    push_cast
    linarith
  constructor
  · apply div_nonneg _ (by norm_num)
    exact_mod_cast hlo
  · rw [div_le_iff₀ (by norm_num)]
    have : (roundHalfEven (x * 100) : Rat) ≤ (10000 : Rat) := by exact_mod_cast hhi
    linarith

theorem foldl_max_bounds {lo hi : Rat} :
    ∀ (t : List Rat) (a : Rat), lo ≤ a → a ≤ hi → (∀ q ∈ t, lo ≤ q ∧ q ≤ hi) →
      lo ≤ t.foldl max a ∧ t.foldl max a ≤ hi := by
  intro t
  induction t with
  | nil =>
    intro a h1 h2 _
    exact ⟨h1, h2⟩
  | cons b t ih =>
    intro a h1 h2 h3
    have hb := h3 b (by simp)
    have hsub : ∀ q ∈ t, lo ≤ q ∧ q ≤ hi := fun q hq => h3 q (by simp [hq])
    have := ih (max a b) (le_trans h1 (le_max_left a b)) (max_le h2 hb.2) hsub
    simpa using this

theorem npMax_bounds {l : List Rat} {lo hi : Rat}
    (h : ∀ q ∈ l, lo ≤ q ∧ q ≤ hi) (hne : l ≠ []) :
    lo ≤ npMax l ∧ npMax l ≤ hi := by
  cases l with
  | nil => exact absurd rfl hne
  | cons a t =>
    have ha := h a (by simp)
    have hsub : ∀ q ∈ t, lo ≤ q ∧ q ≤ hi := fun q hq => h q (by simp [hq])
    exact foldl_max_bounds t a ha.1 ha.2 hsub

/-! ### Case equations for the inference gateway -/

theorem predictCore_invalid {M : ModelOracle} {raw : List Char} {src : String}
    (hv : validate_input_text raw 20 = false) :
    predictCore M raw src =
      Except.error ⟨400, "Input text is too short or invalid for analysis."⟩ := by
  simp [predictCore, hv]

theorem predictCore_emptyClean {M : ModelOracle} {raw : List Char} {src : String}
    (hv : validate_input_text raw 20 = true) (hp : preprocess_text raw = []) :
    predictCore M raw src =
      Except.error ⟨400, "Text preprocessing resulted in empty content."⟩ := by
  simp [predictCore, hv, hp]

theorem predictCore_ok {M : ModelOracle} {raw : List Char} {src : String}
    (hv : validate_input_text raw 20 = true) (hp : preprocess_text raw ≠ []) :
    predictCore M raw src = Except.ok
      { status := "success"
        prediction := label_map_get (M.predictClass (preprocess_text raw))
        confidence_score := pyRound2 (npMax (M.predictProba (preprocess_text raw)) * 100)
        input_source := src
        text_length := raw.length
        message := "Credibility analysis completed successfully." } := by
  simp [predictCore, hv, hp]

theorem predict_news_no_input {net : Network} {M : ModelOracle} {request : NewsRequest}
    (hu : pyStrip request.url = []) (ht : pyStrip request.text = []) :
    predict_news net M request =
      Except.error ⟨400, "Please provide either news text or a valid URL."⟩ := by
  simp [predict_news, hu, ht]

theorem predict_news_url_fail {net : Network} {M : ModelOracle} {request : NewsRequest}
    (hu : pyStrip request.url ≠ [])
    (hex : extract_text_from_url net (pyStrip request.url) = []) :
    predict_news net M request =
      Except.error ⟨400, "Unable to extract valid article content from the provided URL."⟩ := by
  simp [predict_news, hu, hex]

theorem predict_news_url_go {net : Network} {M : ModelOracle} {request : NewsRequest}
    (hu : pyStrip request.url ≠ [])
    (hex : extract_text_from_url net (pyStrip request.url) ≠ []) :
    predict_news net M request =
      predictCore M (extract_text_from_url net (pyStrip request.url)) ("url") := by
  simp [predict_news, hu, hex]

theorem predict_news_text_go {net : Network} {M : ModelOracle} {request : NewsRequest}
    (hu : pyStrip request.url = []) (ht : pyStrip request.text ≠ []) :
    predict_news net M request = predictCore M (pyStrip request.text) ("text") := by
  simp [predict_news, hu, ht]

theorem chosenRaw_url {net : Network} {request : NewsRequest}
    (hu : pyStrip request.url ≠ []) :
    chosenRaw net request = extract_text_from_url net (pyStrip request.url) := by
  simp [chosenRaw, hu]

theorem chosenRaw_text {net : Network} {request : NewsRequest}
    (hu : pyStrip request.url = []) :
    chosenRaw net request = pyStrip request.text := by
  simp [chosenRaw, hu]

theorem predictCore_error_iff (M : ModelOracle) (raw : List Char) (src : String) :
    ((∃ e, predictCore M raw src = Except.error e) ↔
      (validate_input_text raw 20 = false ∨ preprocess_text raw = [])) ∧
    (∀ e, predictCore M raw src = Except.error e →
      e.status_code = 400 ∧ ∀ M' : ModelOracle, predictCore M' raw src = Except.error e) := by
  by_cases hv : validate_input_text raw 20 = true
  · by_cases hp : preprocess_text raw = []
    · rw [predictCore_emptyClean hv hp]
      refine ⟨⟨fun _ => Or.inr hp, fun _ => ⟨_, rfl⟩⟩, ?_⟩
      intro e he
      obtain rfl : (⟨400, "Text preprocessing resulted in empty content."⟩ : HttpError) = e :=
        by exact (Except.error.inj he)
      exact ⟨rfl, fun M' => predictCore_emptyClean hv hp⟩
    · rw [predictCore_ok hv hp]
      constructor
      · constructor
        · rintro ⟨e, he⟩
          exact absurd he (by simp)
        · rintro (h | h)
          · rw [hv] at h
            exact absurd h (by simp)
          · exact absurd h hp
      · intro e he
        exact absurd he (by simp)
  · have hv' : validate_input_text raw 20 = false := by
      revert hv
      cases validate_input_text raw 20 <;> simp
    rw [predictCore_invalid hv']
    refine ⟨⟨fun _ => Or.inl hv', fun _ => ⟨_, rfl⟩⟩, ?_⟩
    intro e he
    obtain rfl : (⟨400, "Input text is too short or invalid for analysis."⟩ : HttpError) = e :=
      by exact (Except.error.inj he)
    exact ⟨rfl, fun M' => predictCore_invalid hv'⟩

theorem predict_news_ok_shape {net : Network} {M : ModelOracle} {request : NewsRequest}
    {resp : PredictResponse} (h : predict_news net M request = Except.ok resp) :
    validate_input_text (chosenRaw net request) 20 = true ∧
    preprocess_text (chosenRaw net request) ≠ [] ∧
    resp = { status := "success"
             prediction := label_map_get (M.predictClass (preprocess_text (chosenRaw net request)))
             confidence_score :=
               pyRound2 (npMax (M.predictProba (preprocess_text (chosenRaw net request))) * 100)
             input_source := if pyStrip request.url ≠ [] then "url" else "text"
             text_length := (chosenRaw net request).length
             message := "Credibility analysis completed successfully." } := by
  by_cases hu : pyStrip request.url = []
  · by_cases ht : pyStrip request.text = []
    · rw [predict_news_no_input hu ht] at h
      exact absurd h (by simp)
    · rw [predict_news_text_go hu ht] at h
      rw [chosenRaw_text hu]
      by_cases hv : validate_input_text (pyStrip request.text) 20 = true
      · by_cases hp : preprocess_text (pyStrip request.text) = []
        · rw [predictCore_emptyClean hv hp] at h
          exact absurd h (by simp)
        · rw [predictCore_ok hv hp] at h
          refine ⟨hv, hp, ?_⟩
          rw [if_neg (by simp [hu])]
          exact (Except.ok.inj h).symm
      · have hv' : validate_input_text (pyStrip request.text) 20 = false := by
          revert hv
          cases validate_input_text (pyStrip request.text) 20 <;> simp
        rw [predictCore_invalid hv'] at h
        exact absurd h (by simp)
  · by_cases hex : extract_text_from_url net (pyStrip request.url) = []
    · rw [predict_news_url_fail hu hex] at h
      exact absurd h (by simp)
    · rw [predict_news_url_go hu hex] at h
      rw [chosenRaw_url hu]
      by_cases hv : validate_input_text (extract_text_from_url net (pyStrip request.url)) 20 = true
      · by_cases hp : preprocess_text (extract_text_from_url net (pyStrip request.url)) = []
        · rw [predictCore_emptyClean hv hp] at h
          exact absurd h (by simp)
        · rw [predictCore_ok hv hp] at h
          refine ⟨hv, hp, ?_⟩
          rw [if_pos hu]
          exact (Except.ok.inj h).symm
      · have hv' : validate_input_text (extract_text_from_url net (pyStrip request.url)) 20 = false := by
          revert hv
          cases validate_input_text (extract_text_from_url net (pyStrip request.url)) 20 <;> simp
        rw [predictCore_invalid hv'] at h
        exact absurd h (by simp)

/-! ### Claims about the scraper (C8, C9, C10) -/

theorem extract_ne_shape {net : Network} {url : List Char}
    (h : extract_text_from_url net url ≠ []) :
    ∃ title body, net.response url = some 200 ∧ net.article url = some (title, body) ∧
      extract_text_from_url net url = pyStrip (title ++ ' ' :: body) ∧
      50 ≤ (extract_text_from_url net url).length := by
  unfold extract_text_from_url at h ⊢
  by_cases hu : url = []
  · rw [if_pos hu] at h
    exact absurd rfl h
  · rw [if_neg hu] at h ⊢
    cases hr : net.response url with
    | none =>
      rw [hr] at h
      exact absurd rfl h
    | some s =>
      rw [hr] at h
      dsimp only at h ⊢
      by_cases hs : s = 200
      · subst hs
        rw [if_neg (by simp)] at h ⊢
        cases ha : net.article url with
        | none =>
          rw [ha] at h
          exact absurd rfl h
        | some tb =>
          obtain ⟨t, b⟩ := tb
          rw [ha] at h
          dsimp only at h ⊢
          by_cases hlen : (pyStrip (t ++ ' ' :: b)).length < 50
          · rw [if_pos hlen] at h
            exact absurd rfl h
          · rw [if_neg hlen] at h ⊢
            exact ⟨t, b, rfl, rfl, rfl, by omega⟩
      · rw [if_pos hs] at h
        exact absurd rfl h

/-- C8: `extract_text_from_url` never raises: every network error, non-200
status, or parse failure yields the empty string, a trimmed title+body
shorter than 50 characters yields the empty string, and every non-empty
result is the trimmed `title ++ " " ++ body` of length at least 50. -/
theorem extract_text_total (net : Network) (url : List Char) :
    (url = [] → extract_text_from_url net url = []) ∧
    (net.response url = none → extract_text_from_url net url = []) ∧
    (∀ s, net.response url = some s → s ≠ 200 → extract_text_from_url net url = []) ∧
    (net.response url = some 200 → net.article url = none →
      extract_text_from_url net url = []) ∧
    (∀ title body, net.response url = some 200 → net.article url = some (title, body) →
      (pyStrip (title ++ ' ' :: body)).length < 50 → extract_text_from_url net url = []) ∧
    (extract_text_from_url net url ≠ [] →
      ∃ title body, net.response url = some 200 ∧ net.article url = some (title, body) ∧
        extract_text_from_url net url = pyStrip (title ++ ' ' :: body) ∧
        50 ≤ (extract_text_from_url net url).length) := by
  refine ⟨?_, ?_, ?_, ?_, ?_, fun h => extract_ne_shape h⟩
  · intro h
    simp [extract_text_from_url, h]
  · intro h
    by_cases hu : url = []
    · simp [extract_text_from_url, hu]
    · simp [extract_text_from_url, hu, h]
  · intro s hs hne
    by_cases hu : url = []
    · simp [extract_text_from_url, hu]
    · simp [extract_text_from_url, hu, hs, hne]
  · intro hr ha
    by_cases hu : url = []
    · simp [extract_text_from_url, hu]
    · simp [extract_text_from_url, hu, hr, ha]
  · intro title body hr ha hlen
    by_cases hu : url = []
    · simp [extract_text_from_url, hu]
    · simp [extract_text_from_url, hu, hr, ha, hlen]

/-- C8 witness: the `{url: "http://bad.example/404"}` scenario where the
fetch returns a non-200 status yields the empty string. -/
theorem extract_text_total_witness :
    extract_text_from_url wBadNet ("http://bad.example/404").toList = [] :=
  (extract_text_total wBadNet (("http://bad.example/404").toList)).2.2.1 404 rfl (by decide)

/-- C9: a non-empty extraction result has length at least 50, carries no
leading or trailing whitespace, and therefore always passes the gateway's
`validate_input_text` check with the default threshold 20. -/
theorem extracted_text_passes_validation (net : Network) (url : List Char)
    (h : extract_text_from_url net url ≠ []) :
    50 ≤ (extract_text_from_url net url).length ∧
    pyStrip (extract_text_from_url net url) = extract_text_from_url net url ∧
    validate_input_text (extract_text_from_url net url) 20 = true := by
  obtain ⟨t, b, _, _, heq, hlen⟩ := extract_ne_shape h
  have hstrip : pyStrip (extract_text_from_url net url) = extract_text_from_url net url := by
    rw [heq]
    exact pyStrip_idem _
  refine ⟨hlen, hstrip, ?_⟩
  unfold validate_input_text
  rw [if_neg h, if_neg (by rw [hstrip]; omega)]

/-- C9 witness: a concrete successful extraction passes validation. -/
theorem extracted_text_passes_validation_witness :
    validate_input_text (extract_text_from_url wNet wUrl) 20 = true ∧
    50 ≤ (extract_text_from_url wNet wUrl).length := by
  have h := extracted_text_passes_validation wNet wUrl (by decide)
  exact ⟨h.2.2, h.1⟩

/-- C10: an empty URL argument makes `extract_text_from_url` return the
empty string immediately, independently of the network (no HTTP request or
article parse is consulted). -/
theorem extract_empty_url_fails_fast (net net' : Network) :
    extract_text_from_url net [] = [] ∧
    extract_text_from_url net [] = extract_text_from_url net' [] := by
  constructor <;> simp [extract_text_from_url]

/-! ### Claims about the inference gateway (C1, C2, C6, C7) -/

/-- C1: `predict` fails with a 400-status error exactly when no input
remains after trimming, or URL extraction yields nothing, or the chosen raw
text fails validation, or preprocessing empties it; and every such failure
is independent of the classifier oracle (the vectorizer and classifier are
never invoked) and deterministic (never retried). -/
theorem predict_invalid_input_iff (net : Network) (M : ModelOracle) (request : NewsRequest) :
    ((∃ e, predict_news net M request = Except.error e) ↔
      ((pyStrip request.text = [] ∧ pyStrip request.url = []) ∨
       (pyStrip request.url ≠ [] ∧ extract_text_from_url net (pyStrip request.url) = []) ∨
       validate_input_text (chosenRaw net request) 20 = false ∨
       preprocess_text (chosenRaw net request) = [])) ∧
    ∀ e, predict_news net M request = Except.error e →
      e.status_code = 400 ∧ ∀ M' : ModelOracle, predict_news net M' request = Except.error e := by
  by_cases hu : pyStrip request.url = []
  · by_cases ht : pyStrip request.text = []
    · refine ⟨⟨fun _ => Or.inl ⟨ht, hu⟩, fun _ => ⟨_, predict_news_no_input hu ht⟩⟩, ?_⟩
      intro e he
      rw [predict_news_no_input hu ht] at he
      obtain rfl := (Except.error.inj he)
      exact ⟨rfl, fun M' => predict_news_no_input hu ht⟩
    · have hgo : ∀ M'' : ModelOracle,
          predict_news net M'' request = predictCore M'' (pyStrip request.text) ("text") :=
        fun M'' => predict_news_text_go hu ht
      have hcr := @chosenRaw_text net request hu
      have hPC := predictCore_error_iff M (pyStrip request.text) ("text")
      constructor
      · rw [hgo M, hcr]
        constructor
        · intro h
          rcases hPC.1.mp h with h' | h'
          · exact Or.inr (Or.inr (Or.inl h'))
          · exact Or.inr (Or.inr (Or.inr h'))
        · intro h
          apply hPC.1.mpr
          rcases h with ⟨h1, _⟩ | ⟨h1, _⟩ | h1 | h1
          · exact absurd h1 ht
          · exact absurd hu h1
          · exact Or.inl h1
          · exact Or.inr h1
      · intro e he
        rw [hgo M] at he
        have h2 := hPC.2 e he
        exact ⟨h2.1, fun M' => by rw [hgo M']; exact h2.2 M'⟩
  · by_cases hex : extract_text_from_url net (pyStrip request.url) = []
    · refine ⟨⟨fun _ => Or.inr (Or.inl ⟨hu, hex⟩),
        fun _ => ⟨_, predict_news_url_fail hu hex⟩⟩, ?_⟩
      intro e he
      rw [predict_news_url_fail hu hex] at he
      obtain rfl := (Except.error.inj he)
      exact ⟨rfl, fun M' => predict_news_url_fail hu hex⟩
    · have hgo : ∀ M'' : ModelOracle,
          predict_news net M'' request =
            predictCore M'' (extract_text_from_url net (pyStrip request.url)) ("url") :=
        fun M'' => predict_news_url_go hu hex
      have hcr := @chosenRaw_url net request hu
      have hPC := predictCore_error_iff M (extract_text_from_url net (pyStrip request.url)) ("url")
      constructor
      · rw [hgo M, hcr]
        constructor
        · intro h
          rcases hPC.1.mp h with h' | h'
          · exact Or.inr (Or.inr (Or.inl h'))
          · exact Or.inr (Or.inr (Or.inr h'))
        · intro h
          apply hPC.1.mpr
          rcases h with ⟨_, h1⟩ | ⟨_, h2⟩ | h1 | h1
          · exact absurd h1 hu
          · exact absurd h2 hex
          · exact Or.inl h1
          · exact Or.inr h1
      · intro e he
        rw [hgo M] at he
        have h2 := hPC.2 e he
        exact ⟨h2.1, fun M' => by rw [hgo M']; exact h2.2 M'⟩

/-- C1 witness: the empty request fails with a 400 error. -/
theorem predict_invalid_input_witness :
    ∃ e, predict_news (netConst none none) wModel { text := [], url := [] } = Except.error e ∧
      e.status_code = 400 := by
  have h := predict_invalid_input_iff (netConst none none) wModel { text := [], url := [] }
  obtain ⟨e, he⟩ := h.1.mpr (Or.inl ⟨rfl, rfl⟩)
  exact ⟨e, he, (h.2 e he).1⟩

/-- C2: when both trimmed fields are non-empty the URL path is used
exclusively: the result is unchanged under any replacement of the `text`
field, and a successful response reports `input_source = "url"` and the
length of the URL-extracted text. -/
theorem predict_url_priority (net : Network) (M : ModelOracle) (request : NewsRequest)
    (ht : pyStrip request.text ≠ []) (hu : pyStrip request.url ≠ []) :
    (∀ t', predict_news net M { text := t', url := request.url } = predict_news net M request) ∧
    ∀ resp, predict_news net M request = Except.ok resp →
      resp.input_source = "url" ∧
      resp.text_length = (extract_text_from_url net (pyStrip request.url)).length := by
  constructor
  · intro t'
    by_cases hex : extract_text_from_url net (pyStrip request.url) = []
    · rw [@predict_news_url_fail net M ⟨t', request.url⟩ hu hex,
        predict_news_url_fail hu hex]
    · rw [@predict_news_url_go net M ⟨t', request.url⟩ hu hex,
        predict_news_url_go hu hex]
  · intro resp hok
    obtain ⟨_, _, rfl⟩ := predict_news_ok_shape hok
    refine ⟨by simp [hu], ?_⟩
    show (chosenRaw net request).length = _
    rw [chosenRaw_url hu]

/-- C2 witness: with both fields populated, replacing the text field leaves
the result unchanged. -/
theorem predict_url_priority_witness :
    predict_news wNet wModel { text := ("different ignored text").toList, url := wUrl } =
      predict_news wNet wModel { text := wText, url := wUrl } := by
  have h := predict_url_priority wNet wModel { text := wText, url := wUrl }
    (by decide) (by decide)
  exact h.1 (("different ignored text").toList)

/-- C6: the label mapping is total: class 0 yields "Fake News", class 1
yields "Real News", every other code passes through as its decimal string
form, and every successful response's label is exactly this mapping applied
to the classifier's predicted class. -/
theorem label_mapping_total :
    label_map_get 0 = ("Fake News").toList ∧
    label_map_get 1 = ("Real News").toList ∧
    (∀ p : Int, p ≠ 0 → p ≠ 1 → label_map_get p = intStr p) ∧
    ∀ (net : Network) (M : ModelOracle) (request : NewsRequest) (resp : PredictResponse),
      predict_news net M request = Except.ok resp →
      resp.prediction = label_map_get (M.predictClass (preprocess_text (chosenRaw net request))) := by
  refine ⟨rfl, rfl, ?_, ?_⟩
  · intro p h0 h1
    simp [label_map_get, h0, h1]
  · intro net M request resp hok
    obtain ⟨_, _, rfl⟩ := predict_news_ok_shape hok
    rfl

/-- C6 witness: the mapping at classes 0 and 7. -/
theorem label_mapping_total_witness :
    label_map_get 0 = ("Fake News").toList ∧ label_map_get 7 = intStr 7 :=
  ⟨label_mapping_total.1, label_mapping_total.2.2.1 7 (by decide) (by decide)⟩

/-- C7: a successful response's confidence score is the maximum class
probability times 100 rounded to two decimal places, and lies in [0, 100]
whenever the class probabilities lie in [0, 1]. -/
theorem confidence_score_in_range (net : Network) (M : ModelOracle) (request : NewsRequest)
    (resp : PredictResponse) (hok : predict_news net M request = Except.ok resp) :
    resp.confidence_score =
      pyRound2 (npMax (M.predictProba (preprocess_text (chosenRaw net request))) * 100) ∧
    ((∀ q ∈ M.predictProba (preprocess_text (chosenRaw net request)), 0 ≤ q ∧ q ≤ 1) →
      M.predictProba (preprocess_text (chosenRaw net request)) ≠ [] →
      0 ≤ resp.confidence_score ∧ resp.confidence_score ≤ 100) := by
  obtain ⟨_, _, rfl⟩ := predict_news_ok_shape hok
  refine ⟨rfl, ?_⟩
  intro hq hne
  have hb := npMax_bounds hq hne
  have h0 : (0 : Rat) ≤ npMax (M.predictProba (preprocess_text (chosenRaw net request))) * 100 :=
    mul_nonneg hb.1 (by norm_num)
  have h1 : npMax (M.predictProba (preprocess_text (chosenRaw net request))) * 100 ≤ 100 := by
    have := hb.2
    linarith
  exact pyRound2_bounds h0 h1

/-- C7 witness: the 0.87/0.13 scenario yields a confidence score in
[0, 100] (in fact 87). -/
theorem confidence_score_in_range_witness :
    (0 ≤ wResp.confidence_score ∧ wResp.confidence_score ≤ 100) ∧
    wResp.confidence_score = 87 := by
  have hok : predict_news wNet wModel { text := wText, url := [] } = Except.ok wResp := by
    rw [@predict_news_text_go wNet wModel ⟨wText, []⟩ (by decide) (by decide)]
    exact predictCore_ok (by decide) (by decide)
  have h := confidence_score_in_range wNet wModel { text := wText, url := [] } wResp hok
  constructor
  · apply h.2
    · intro q hq
      simp only [wModel, modelConst] at hq
      rcases List.mem_cons.mp hq with rfl | hq
      · norm_num
      · simp only [List.mem_singleton] at hq
        subst hq
        norm_num
    · simp [wModel, modelConst]
  · show pyRound2 (npMax (wModel.predictProba (preprocess_text (pyStrip wText))) * 100) = 87
    have : wModel.predictProba (preprocess_text (pyStrip wText)) =
        [(87 : Rat) / 100, (13 : Rat) / 100] := rfl
    rw [this]
    norm_num [npMax, pyRound2, roundHalfEven]

/-! ### Words produced by splitting; claim C4 -/

theorem strongLengthRec {α : Type _} {P : List α → Prop}
    (ind : ∀ l, (∀ l', l'.length < l.length → P l') → P l) : ∀ l, P l := by
  have H : ∀ (n : Nat) (l : List α), l.length ≤ n → P l := by
    intro n
    induction n with
    | zero =>
      intro l hl
      exact ind l (fun l' hl' => absurd (by omega : l'.length < 0) (Nat.not_lt_zero _))
    | succ n ih =>
      intro l hl
      exact ind l (fun l' hl' => ih l' (by omega))
  exact fun l => H l.length l le_rfl

theorem pySplit_words_good :
    ∀ (l : List Char), ∀ w ∈ pySplit l, w ≠ [] ∧ ∀ c ∈ w, pyIsSpace c = false := by
  apply strongLengthRec
  intro l ih w hw
  cases l with
  | nil => simp [pySplit_nil] at hw
  | cons c cs =>
    by_cases hc : pyIsSpace c
    · rw [pySplit_cons_space hc] at hw
      exact ih cs (by simp) w hw
    · rw [pySplit_cons_word hc] at hw
      rcases List.mem_cons.mp hw with rfl | hw
      · refine ⟨by simp, ?_⟩
        intro x hx
        rcases List.mem_cons.mp hx with rfl | hx
        · simpa using hc
        · have := List.mem_takeWhile_imp hx
          simpa [notSpace] using this
      · have hd : (cs.dropWhile notSpace).length ≤ cs.length :=
          (List.dropWhile_sublist notSpace).length_le
        exact ih (cs.dropWhile notSpace) (by simp; omega) w hw

theorem unwords_ne_nil {ws : List (List Char)} (hne : ws ≠ [])
    (hw : ∀ w ∈ ws, w ≠ []) : unwords ws ≠ [] := by
  cases ws with
  | nil => exact absurd rfl hne
  | cons w ws =>
    cases ws with
    | nil => exact hw w (by simp)
    | cons v vs =>
      show w ++ ' ' :: unwords (v :: vs) ≠ []
      simp

/-- C4 counterexample: a text of trimmed length at least 20 consisting only
of alphabetic stopwords passes validation yet preprocesses to the empty
string, so the gateway's "empty after cleaning" failure is reachable for
such inputs. -/
theorem preprocess_empty_despite_valid_input :
    validate_input_text (("the the the the the the").toList) 20 = true ∧
    (("the the the the the the").toList).any Char.isAlpha = true ∧
    preprocess_text (("the the the the the the").toList) = [] :=
  ⟨by decide, by decide, by decide⟩

/-- C4 (amended): for every text at or above the validation threshold whose
cleaned form contains at least one word outside the stopword set,
`preprocess_text` returns a non-empty string (alphabetic content alone is
not enough: all-stopword text cleans to the empty string). -/
theorem preprocess_nonempty_of_surviving_word (t : List Char)
    (hv : validate_input_text t 20 = true)
    (hw : ∃ w ∈ pySplit (basic_clean t), ¬w ∈ STOP_WORDS) :
    preprocess_text t ≠ [] := by
  obtain ⟨w, hwmem, hwstop⟩ := hw
  have ht : t ≠ [] := by
    intro h
    rw [h] at hv
    simp [validate_input_text] at hv
  have hbc : basic_clean t ≠ [] := by
    intro h
    rw [h, pySplit_nil] at hwmem
    simp at hwmem
  rw [preprocess_text, if_neg ht, remove_stopwords, if_neg hbc]
  apply unwords_ne_nil
  · intro hnil
    have hmem : w ∈ (pySplit (basic_clean t)).filter (fun w => !STOP_WORDS.contains w) :=
      List.mem_filter.mpr ⟨hwmem, by simp [List.contains, List.elem_iff, hwstop]⟩
    rw [hnil] at hmem
    simp at hmem
  · intro w' hw'
    exact (pySplit_words_good (basic_clean t) w' (List.mem_filter.mp hw').1).1

/-- C4 witness: a valid-length text with surviving non-stopword words
preprocesses to a non-empty string. -/
theorem preprocess_nonempty_witness : preprocess_text wText ≠ [] := by
  apply preprocess_nonempty_of_surviving_word wText (by decide)
  exact ⟨("government").toList, by decide, by decide⟩

/-! ### Characterizing the URL pattern matches -/

theorem take_eq_of_pfx {w l : List Char} {n : Nat} (h : w <+: l) (hn : n ≤ w.length) :
    l.take n = w.take n := by
  obtain ⟨r, rfl⟩ := h
  rw [List.take_append_eq_append_take]
  have h0 : n - w.length = 0 := by omega
  rw [h0]
  simp

theorem takeWhile_pfx (p : Char → Bool) (l : List Char) : l.takeWhile p <+: l :=
  ⟨l.dropWhile p, List.takeWhile_append_dropWhile p l⟩

theorem pfx_cons {a : Char} {x y : List Char} (h : x <+: y) : a :: x <+: a :: y := by
  obtain ⟨r, rfl⟩ := h
  exact ⟨r, rfl⟩

theorem take_length_ge {l s : List Char} {n : Nat} (h : l.take n = s) (hs : s.length = n) :
    n ≤ l.length := by
  have := congrArg List.length h
  rw [List.length_take] at this
  omega

theorem takeWhile_take_of_all {p : Char → Bool} :
    ∀ (n : Nat) (l s : List Char), l.take n = s → s.length = n → (∀ c ∈ s, p c = true) →
      (l.takeWhile p).take n = s ∧ n ≤ (l.takeWhile p).length := by
  intro n
  induction n with
  | zero =>
    intro l s h hs _
    have : s = [] := List.length_eq_zero.mp hs
    subst this
    simp
  | succ n ih =>
    intro l s h hs hp
    cases l with
    | nil =>
      rw [List.take_nil] at h
      rw [← h] at hs
      simp at hs
    | cons c cs =>
      cases s with
      | nil => simp at hs
      | cons a s' =>
        rw [List.take_succ_cons] at h
        injection h with h1 h2
        subst h1
        have hpc : p c = true := hp c (by simp)
        have hlen : s'.length = n := by simpa using hs
        have hps : ∀ x ∈ s', p x = true := fun x hx => hp x (by simp [hx])
        have ihr := ih cs s' h2 hlen hps
        rw [List.takeWhile_cons, if_pos hpc]
        refine ⟨?_, ?_⟩
        · rw [List.take_succ_cons, ihr.1]
        · simp only [List.length_cons]
          omega

theorem urlHit_of_pfx {w W : List Char} (hw : w <+: W) (h : urlHit w) : urlHit W := by
  rcases h with ⟨c, hc, hcs⟩ | ⟨c, hc, hcs⟩
  · left
    refine ⟨c, ?_, hcs⟩
    have h5 : 5 ≤ w.length := take_length_ge hc (by simp)
    rw [take_eq_of_pfx hw h5, hc]
  · right
    refine ⟨c, ?_, hcs⟩
    have h4 : 4 ≤ w.length := take_length_ge hc (by simp)
    rw [take_eq_of_pfx hw h4, hc]

theorem not_urlHit_nil : ¬urlHit [] := by
  rintro (⟨c, hc, _⟩ | ⟨c, hc, _⟩) <;> simp at hc

theorem urlHit_head {c : Char} {cs : List Char} (h : urlHit (c :: cs)) :
    c = 'h' ∨ c = 'w' := by
  rcases h with ⟨e, he, _⟩ | ⟨e, he, _⟩
  · left
    rw [List.take_succ_cons] at he
    injection he with h1 _
  · right
    rw [List.take_succ_cons] at he
    injection he with h1 _

theorem urlHit_takeWhile {t : List Char} (h : urlHit t) :
    urlHit (t.takeWhile notSpace) := by
  rcases h with ⟨c, hc, hcs⟩ | ⟨c, hc, hcs⟩
  · have hall : ∀ x ∈ ['h', 't', 't', 'p', c], notSpace x = true := by
      intro x hx
      simp only [List.mem_cons, List.not_mem_nil, or_false] at hx
      rcases hx with rfl | rfl | rfl | rfl | rfl
      · decide
      · decide
      · decide
      · decide
      · exact hcs
    have h3 := takeWhile_take_of_all 5 t _ hc (by simp) hall
    exact Or.inl ⟨c, h3.1, hcs⟩
  · have hall : ∀ x ∈ ['w', 'w', 'w', c], notSpace x = true := by
      intro x hx
      simp only [List.mem_cons, List.not_mem_nil, or_false] at hx
      rcases hx with rfl | rfl | rfl | rfl
      · decide
      · decide
      · decide
      · exact hcs
    have h3 := takeWhile_take_of_all 4 t _ hc (by simp) hall
    exact Or.inr ⟨c, h3.1, hcs⟩

theorem urlSafe_nil : urlSafe [] := by
  intro t' ht'
  rw [List.suffix_nil.mp ht']
  exact not_urlHit_nil

theorem urlSafe_cons_iff {c : Char} {cs : List Char} :
    urlSafe (c :: cs) ↔ ¬urlHit (c :: cs) ∧ urlSafe cs := by
  constructor
  · intro h
    exact ⟨h _ List.suffix_rfl, fun t' ht' => h t' (ht'.trans ⟨[c], rfl⟩)⟩
  · rintro ⟨h1, h2⟩ t' ht'
    rcases List.suffix_cons_iff.mp ht' with rfl | ht'
    · exact h1
    · exact h2 t' ht'

theorem urlSafe_infix {l a : List Char} (h : urlSafe l) (ha : a <:+: l) : urlSafe a := by
  intro a' ha' hhit
  obtain ⟨x, y, rfl⟩ := ha
  obtain ⟨g, rfl⟩ := ha'
  have hsfx : a' ++ y <:+ x ++ (g ++ a') ++ y := ⟨x ++ g, by simp⟩
  exact h (a' ++ y) hsfx (urlHit_of_pfx ⟨y, rfl⟩ hhit)

theorem take_succ_shape {t : List Char} {n : Nat} {s : List Char} {c : Char}
    (hn : t.take n = s) (hc : t[n]? = some c) : t.take (n + 1) = s ++ [c] := by
  rw [List.take_succ, hn, hc]
  rfl

theorem take_succ_split {t : List Char} {n : Nat} {s : List Char} {c : Char}
    (hs : s.length = n) (h : t.take (n + 1) = s ++ [c]) :
    t.take n = s ∧ t[n]? = some c := by
  have heq : t.take n ++ (t[n]?).toList = s ++ [c] := by
    rw [← List.take_succ, h]
  have h5 : n + 1 ≤ t.length := take_length_ge h (by simp [hs])
  have hlen : (t.take n).length = s.length := by
    rw [List.length_take, hs]
    omega
  obtain ⟨h1, h2⟩ := List.append_inj heq hlen
  refine ⟨h1, ?_⟩
  cases ho : t[n]? with
  | none =>
    rw [ho] at h2
    simp at h2
  | some x =>
    rw [ho] at h2
    simp only [Option.toList_some] at h2
    injection h2 with h3 _
    rw [h3]

theorem tok_ne_head {t : List Char} {n : Nat}
    (h : (t.drop n).takeWhile notSpace ≠ []) :
    ∃ c, t[n]? = some c ∧ notSpace c = true := by
  cases hd : t.drop n with
  | nil =>
    rw [hd] at h
    simp at h
  | cons c r =>
    rw [hd, List.takeWhile_cons] at h
    by_cases hc : notSpace c
    · refine ⟨c, ?_, hc⟩
      have hh := List.head?_drop t n
      rw [hd] at hh
      exact hh.symm
    · rw [if_neg hc] at h
      exact absurd rfl h

theorem tok_nil_none {t : List Char} {n : Nat}
    (h : (t.drop n).takeWhile notSpace = []) {c : Char}
    (hc : t[n]? = some c) : notSpace c = false := by
  have hh := List.head?_drop t n
  rw [hc] at hh
  cases hd : t.drop n with
  | nil =>
    rw [hd] at hh
    simp at hh
  | cons a r =>
    rw [hd] at hh h
    simp only [List.head?_cons, Option.some.injEq] at hh
    subst hh
    rw [List.takeWhile_cons] at h
    by_cases ha : notSpace a = true
    · rw [if_pos ha] at h
      simp at h
    · simpa using ha

theorem matchUrlAt_none_iff (t : List Char) : matchUrlAt t = none ↔ ¬urlHit t := by
  unfold matchUrlAt
  by_cases h4 : t.take 4 = ['h', 't', 't', 'p']
  · rw [if_pos h4]
    by_cases htok : (t.drop 4).takeWhile notSpace = []
    · rw [if_pos htok]
      refine iff_of_true rfl ?_
      rintro (⟨c, hc, hcs⟩ | ⟨c, hc, hcs⟩)
      · obtain ⟨_, hidx⟩ := take_succ_split (s := ['h', 't', 't', 'p']) (by simp) hc
        have := tok_nil_none htok hidx
        simp [this] at hcs
      · obtain ⟨h3, _⟩ := take_succ_split (s := ['w', 'w', 'w']) (by simp) hc
        rw [h4] at hc
        simp at hc
    · rw [if_neg htok]
      refine iff_of_false (by simp) ?_
      intro hno
      apply hno
      obtain ⟨c, hidx, hns⟩ := tok_ne_head htok
      exact Or.inl ⟨c, take_succ_shape h4 hidx, hns⟩
  · rw [if_neg h4]
    by_cases h3 : t.take 3 = ['w', 'w', 'w']
    · rw [if_pos h3]
      by_cases htok : (t.drop 3).takeWhile notSpace = []
      · rw [if_pos htok]
        refine iff_of_true rfl ?_
        rintro (⟨c, hc, hcs⟩ | ⟨c, hc, hcs⟩)
        · exact h4 (take_succ_split (s := ['h', 't', 't', 'p']) (by simp) hc).1
        · obtain ⟨_, hidx⟩ := take_succ_split (s := ['w', 'w', 'w']) (by simp) hc
          have := tok_nil_none htok hidx
          simp [this] at hcs
      · rw [if_neg htok]
        refine iff_of_false (by simp) ?_
        intro hno
        apply hno
        obtain ⟨c, hidx, hns⟩ := tok_ne_head htok
        exact Or.inr ⟨c, take_succ_shape h3 hidx, hns⟩
    · rw [if_neg h3]
      refine iff_of_true rfl ?_
      rintro (⟨c, hc, _⟩ | ⟨c, hc, _⟩)
      · exact h4 (take_succ_split (s := ['h', 't', 't', 'p']) (by simp) hc).1
      · exact h3 (take_succ_split (s := ['w', 'w', 'w']) (by simp) hc).1

theorem matchUrlAt_some_head {c : Char} {cs rest : List Char}
    (h : matchUrlAt (c :: cs) = some rest) : c = 'h' ∨ c = 'w' := by
  unfold matchUrlAt at h
  by_cases h4 : (c :: cs).take 4 = ['h', 't', 't', 'p']
  · left
    rw [List.take_succ_cons] at h4
    injection h4 with h1 _
  · rw [if_neg h4] at h
    by_cases h3 : (c :: cs).take 3 = ['w', 'w', 'w']
    · right
      rw [List.take_succ_cons] at h3
      injection h3 with h1 _
    · rw [if_neg h3] at h
      simp at h

/-! ### The substitution scanner reaches a fixed point exactly on safe text -/

theorem stripUrls_of_urlSafe {t : List Char} (h : urlSafe t) : stripUrls t = t := by
  induction t with
  | nil => exact stripUrls_nil
  | cons c cs ih =>
    rw [urlSafe_cons_iff] at h
    rw [stripUrls_cons_none ((matchUrlAt_none_iff _).mpr h.1), ih h.2]

theorem urlSafe_of_stripUrls_eq {t : List Char} (h : stripUrls t = t) : urlSafe t := by
  induction t with
  | nil => exact urlSafe_nil
  | cons c cs ih =>
    cases hm : matchUrlAt (c :: cs) with
    | some rest =>
      exfalso
      rw [stripUrls_cons_some hm] at h
      injection h with h1 _
      rcases matchUrlAt_some_head hm with rfl | rfl <;> simp at h1
    | none =>
      rw [stripUrls_cons_none hm] at h
      injection h with _ h2
      rw [urlSafe_cons_iff]
      exact ⟨(matchUrlAt_none_iff _).mp hm, ih h2⟩

theorem stripUrls_eq_self_iff (t : List Char) : stripUrls t = t ↔ urlSafe t :=
  ⟨urlSafe_of_stripUrls_eq, stripUrls_of_urlSafe⟩

theorem tw_stripUrls_pfx (l : List Char) :
    (stripUrls l).takeWhile notSpace <+: l.takeWhile notSpace := by
  induction l with
  | nil =>
    rw [stripUrls_nil]
  | cons c cs ih =>
    cases hm : matchUrlAt (c :: cs) with
    | some rest =>
      rw [stripUrls_cons_some hm, List.takeWhile_cons, if_neg (by decide)]
      exact ⟨_, rfl⟩
    | none =>
      rw [stripUrls_cons_none hm, List.takeWhile_cons, List.takeWhile_cons]
      by_cases hc : notSpace c
      · rw [if_pos hc, if_pos hc]
        exact pfx_cons ih
      · rw [if_neg hc, if_neg hc]

theorem urlHit_up {c : Char} {cs : List Char} (h : urlHit (c :: stripUrls cs)) :
    urlHit (c :: cs) := by
  rcases h with ⟨e, he, hes⟩ | ⟨e, he, hes⟩
  · rw [List.take_succ_cons] at he
    injection he with h1 h2
    subst h1
    left
    refine ⟨e, ?_, hes⟩
    rw [List.take_succ_cons]
    have hall : ∀ x ∈ ['t', 't', 'p', e], notSpace x = true := by
      intro x hx
      simp only [List.mem_cons, List.not_mem_nil, or_false] at hx
      rcases hx with rfl | rfl | rfl | rfl
      · decide
      · decide
      · decide
      · exact hes
    have h3 := takeWhile_take_of_all 4 (stripUrls cs) _ h2 (by simp) hall
    have h4 : (cs.takeWhile notSpace).take 4 = ['t', 't', 'p', e] := by
      rw [take_eq_of_pfx (tw_stripUrls_pfx cs) h3.2, h3.1]
    have h5 : cs.take 4 = ['t', 't', 'p', e] := by
      rw [take_eq_of_pfx (takeWhile_pfx notSpace cs) (take_length_ge h4 (by simp)), h4]
    rw [h5]
  · rw [List.take_succ_cons] at he
    injection he with h1 h2
    subst h1
    right
    refine ⟨e, ?_, hes⟩
    rw [List.take_succ_cons]
    have hall : ∀ x ∈ ['w', 'w', e], notSpace x = true := by
      intro x hx
      simp only [List.mem_cons, List.not_mem_nil, or_false] at hx
      rcases hx with rfl | rfl | rfl
      · decide
      · decide
      · exact hes
    have h3 := takeWhile_take_of_all 3 (stripUrls cs) _ h2 (by simp) hall
    have h4 : (cs.takeWhile notSpace).take 3 = ['w', 'w', e] := by
      rw [take_eq_of_pfx (tw_stripUrls_pfx cs) h3.2, h3.1]
    have h5 : cs.take 3 = ['w', 'w', e] := by
      rw [take_eq_of_pfx (takeWhile_pfx notSpace cs) (take_length_ge h4 (by simp)), h4]
    rw [h5]

theorem urlSafe_stripUrls : ∀ l, urlSafe (stripUrls l) := by
  apply strongLengthRec
  intro l ih
  cases l with
  | nil =>
    rw [stripUrls_nil]
    exact urlSafe_nil
  | cons c cs =>
    cases hm : matchUrlAt (c :: cs) with
    | some rest =>
      rw [stripUrls_cons_some hm, urlSafe_cons_iff]
      constructor
      · intro hh
        rcases urlHit_head hh with h | h <;> simp at h
      · exact ih rest (by
          have := matchUrlAt_some_length hm
          simpa using this)
    | none =>
      rw [stripUrls_cons_none hm, urlSafe_cons_iff]
      exact ⟨fun hh => (matchUrlAt_none_iff _).mp hm (urlHit_up hh), ih cs (by simp)⟩

/-! ### Claim C5: what the URL-stripping step actually removes -/

/-- C5 counterexample: the stripping step is not token-based.  The single
token `ahttpz` does not start with `http`, `https` or `www`, yet the step
rewrites it to `a ` (a match may begin inside a token); and the bare token
`http` does start with `http` but is left untouched (`\S+` needs at least
one following non-space character). -/
theorem stripUrls_counterexample :
    (pySplit (("ahttpz").toList) = [("ahttpz").toList] ∧
     ("ahttpz").toList.take 4 ≠ ("http").toList ∧
     ("ahttpz").toList.take 5 ≠ ("https").toList ∧
     ("ahttpz").toList.take 3 ≠ ("www").toList ∧
     stripUrls (("ahttpz").toList) = ['a', ' '] ∧
     stripUrls (("ahttpz").toList) ≠ ("ahttpz").toList) ∧
    (("http").toList.take 4 = ("http").toList ∧
     stripUrls (("http").toList) = ("http").toList) := by
  exact ⟨⟨by decide, by decide, by decide, by decide, by decide, by decide⟩,
    by decide, by decide⟩

/-- C5 (amended): the URL-stripping step runs after lowercasing and before
HTML-tag removal and non-letter replacement; at each scan position a match
of `http\S+|www\S+|https\S+` — an occurrence of `http` or `www` followed by
at least one non-whitespace character, extending greedily to the next
whitespace — is replaced by a single space, other characters are copied;
consequently the step leaves a text unchanged exactly when no suffix of the
text begins with such a match. -/
theorem stripUrls_step_spec :
    (∀ text : List Char, basic_clean text =
      pyStrip (collapseWs (replaceNonAlpha (stripTags (stripUrls (text.map Char.toLower)))))) ∧
    (∀ (c : Char) (cs rest : List Char), matchUrlAt (c :: cs) = some rest →
      stripUrls (c :: cs) = ' ' :: stripUrls rest) ∧
    (∀ (c : Char) (cs : List Char), matchUrlAt (c :: cs) = none →
      stripUrls (c :: cs) = c :: stripUrls cs) ∧
    (∀ t : List Char, stripUrls t = t ↔ urlSafe t) :=
  ⟨fun _ => rfl, fun _ _ _ h => stripUrls_cons_some h,
   fun _ _ h => stripUrls_cons_none h, stripUrls_eq_self_iff⟩

/-- C5 amended-claim witness: one concrete match step and one concrete
copy step of the scanner. -/
theorem stripUrls_step_spec_witness :
    stripUrls (("httpz x").toList) = ' ' :: stripUrls ((" x").toList) ∧
    stripUrls (("xyz").toList) = 'x' :: stripUrls (("yz").toList) := by
  constructor
  · exact stripUrls_step_spec.2.1 'h' (("ttpz x").toList) ((" x").toList) (by decide)
  · exact stripUrls_step_spec.2.2.1 'x' (("yz").toList) (by decide)

/-! ### Words, suffixes and safety transfer -/

theorem notSpace_true_iff {c : Char} : notSpace c = true ↔ ¬pyIsSpace c := by
  simp [notSpace]

theorem words_cons_cover (c : Char) (cs : List Char) :
    ∀ w ∈ pySplit cs, ∃ W ∈ pySplit (c :: cs), w <:+ W := by
  intro w hw
  by_cases hc : pyIsSpace c
  · rw [pySplit_cons_space hc]
    exact ⟨w, hw, List.suffix_rfl⟩
  · rw [pySplit_cons_word hc]
    cases cs with
    | nil =>
      rw [pySplit_nil] at hw
      exact absurd hw (List.not_mem_nil w)
    | cons c' cs' =>
      by_cases hc' : pyIsSpace c'
      · rw [pySplit_cons_space hc'] at hw
        refine ⟨w, ?_, List.suffix_rfl⟩
        right
        rw [List.dropWhile_cons, if_neg (by simp [notSpace, hc']), pySplit_cons_space hc']
        exact hw
      · rw [pySplit_cons_word hc'] at hw
        rw [List.takeWhile_cons, if_pos (notSpace_true_iff.mpr hc'),
          List.dropWhile_cons, if_pos (notSpace_true_iff.mpr hc')]
        rcases List.mem_cons.mp hw with rfl | hw
        · exact ⟨c :: c' :: cs'.takeWhile notSpace, by simp, ⟨[c], rfl⟩⟩
        · exact ⟨w, by simp [hw], List.suffix_rfl⟩

theorem word_sub_ifx : ∀ (l : List Char), ∀ w ∈ pySplit l, w <:+: l := by
  apply strongLengthRec
  intro l ih w hw
  cases l with
  | nil =>
    rw [pySplit_nil] at hw
    exact absurd hw (List.not_mem_nil w)
  | cons c cs =>
    by_cases hc : pyIsSpace c
    · rw [pySplit_cons_space hc] at hw
      exact List.infix_cons (ih cs (by simp) w hw)
    · rw [pySplit_cons_word hc] at hw
      rcases List.mem_cons.mp hw with rfl | hw
      · exact (pfx_cons (takeWhile_pfx notSpace cs)).isInfix
      · have hd : (cs.dropWhile notSpace).length ≤ cs.length :=
          (List.dropWhile_sublist notSpace).length_le
        have h1 := ih (cs.dropWhile notSpace) (by simp; omega) w hw
        exact List.infix_cons (h1.trans (List.dropWhile_suffix notSpace).isInfix)

theorem wordSafe_of_urlSafe {l : List Char} (h : urlSafe l) : wordSafe l :=
  fun w hw => urlSafe_infix h (word_sub_ifx l w hw)

theorem twCover : ∀ (l : List Char), ∀ t', t' <:+ l →
    (t'.takeWhile notSpace = [] ∨
      ∃ w ∈ pySplit l, t'.takeWhile notSpace <:+ w) := by
  apply strongLengthRec
  intro l ih t' ht'
  cases l with
  | nil =>
    rw [List.suffix_nil.mp ht']
    exact Or.inl rfl
  | cons c cs =>
    rcases List.suffix_cons_iff.mp ht' with rfl | ht'
    · by_cases hc : pyIsSpace c
      · left
        rw [List.takeWhile_cons, if_neg (by simp [notSpace, hc])]
      · right
        refine ⟨c :: cs.takeWhile notSpace, ?_, ?_⟩
        · rw [pySplit_cons_word hc]
          simp
        · rw [List.takeWhile_cons, if_pos (notSpace_true_iff.mpr hc)]
    · rcases ih cs (by simp) t' ht' with htw | ⟨w, hw, hs⟩
      · exact Or.inl htw
      · obtain ⟨W, hW, hws⟩ := words_cons_cover c cs w hw
        exact Or.inr ⟨W, hW, hs.trans hws⟩

theorem urlSafe_of_wordSafe {l : List Char} (h : wordSafe l) : urlSafe l := by
  intro t' ht' hhit
  have h1 := urlHit_takeWhile hhit
  rcases twCover l t' ht' with htw | ⟨w, hw, hs⟩
  · rw [htw] at h1
    exact not_urlHit_nil h1
  · exact h w hw _ hs h1

/-! ### Words of suffixes, prefixes and infixes -/

theorem words_sfx_cover : ∀ (l : List Char), ∀ t', t' <:+ l →
    ∀ w ∈ pySplit t', ∃ W ∈ pySplit l, w <:+: W := by
  apply strongLengthRec
  intro l ih t' ht' w hw
  cases l with
  | nil =>
    rw [List.suffix_nil.mp ht', pySplit_nil] at hw
    exact absurd hw (List.not_mem_nil w)
  | cons c cs =>
    rcases List.suffix_cons_iff.mp ht' with rfl | ht'
    · exact ⟨w, hw, List.infix_rfl⟩
    · obtain ⟨W1, hW1, hw1⟩ := ih cs (by simp) t' ht' w hw
      obtain ⟨W2, hW2, hw2⟩ := words_cons_cover c cs W1 hW1
      exact ⟨W2, hW2, hw1.trans hw2.isInfix⟩

theorem tw_dw_pfx {p : Char → Bool} :
    ∀ (t' l : List Char), t' <+: l →
      (t'.takeWhile p <+: l.takeWhile p) ∧
      (t'.dropWhile p = [] ∨ t'.dropWhile p <+: l.dropWhile p) := by
  intro t'
  induction t' with
  | nil =>
    intro l _
    exact ⟨⟨_, rfl⟩, Or.inl rfl⟩
  | cons c t'' ih =>
    intro l hp
    obtain ⟨r, rfl⟩ := hp
    have h := ih (t'' ++ r) ⟨r, rfl⟩
    by_cases hc : p c
    · constructor
      · rw [List.cons_append, List.takeWhile_cons, List.takeWhile_cons, if_pos hc, if_pos hc]
        exact pfx_cons h.1
      · rw [List.cons_append, List.dropWhile_cons, List.dropWhile_cons, if_pos hc, if_pos hc]
        exact h.2
    · constructor
      · rw [List.cons_append, List.takeWhile_cons, List.takeWhile_cons, if_neg hc, if_neg hc]
      · rw [List.cons_append, List.dropWhile_cons, List.dropWhile_cons, if_neg hc, if_neg hc]
        exact Or.inr ⟨r, by simp⟩

theorem words_pfx_cover : ∀ (l : List Char), ∀ t', t' <+: l →
    ∀ w ∈ pySplit t', ∃ W ∈ pySplit l, w <:+: W := by
  apply strongLengthRec
  intro l ih t' hp w hw
  cases t' with
  | nil =>
    rw [pySplit_nil] at hw
    exact absurd hw (List.not_mem_nil w)
  | cons c t'' =>
    obtain ⟨r, rfl⟩ := hp
    rw [List.cons_append]
    by_cases hc : pyIsSpace c
    · rw [pySplit_cons_space hc] at hw
      rw [pySplit_cons_space hc]
      exact ih (t'' ++ r) (by simp) t'' ⟨r, rfl⟩ w hw
    · have htd := tw_dw_pfx (p := notSpace) t'' (t'' ++ r) ⟨r, rfl⟩
      rw [pySplit_cons_word hc] at hw
      rw [pySplit_cons_word hc]
      rcases List.mem_cons.mp hw with rfl | hw
      · exact ⟨c :: (t'' ++ r).takeWhile notSpace, by simp,
          (pfx_cons htd.1).isInfix⟩
      · rcases htd.2 with hdw | hdw
        · rw [hdw, pySplit_nil] at hw
          exact absurd hw (List.not_mem_nil w)
        · have hlen : ((t'' ++ r).dropWhile notSpace).length < (c :: (t'' ++ r)).length := by
            have := (List.dropWhile_sublist (l := t'' ++ r) notSpace).length_le
            simp only [List.length_cons]
            omega
          obtain ⟨W, hW, hw1⟩ :=
            ih ((t'' ++ r).dropWhile notSpace) hlen (t''.dropWhile notSpace) hdw w hw
          exact ⟨W, by simp [hW], hw1⟩

theorem words_infix_cover {a b : List Char} (h : a <:+: b) :
    ∀ w ∈ pySplit a, ∃ W ∈ pySplit b, w <:+: W := by
  obtain ⟨x, y, rfl⟩ := h
  intro w hw
  obtain ⟨W1, hW1, hw1⟩ := words_pfx_cover (a ++ y) a ⟨y, rfl⟩ w hw
  obtain ⟨W2, hW2, hw2⟩ := words_sfx_cover (x ++ a ++ y) (a ++ y) ⟨x, by simp⟩ W1 hW1
  exact ⟨W2, hW2, hw1.trans hw2⟩

/-! ### Word covers for the tag-stripping and character-mapping stages -/

theorem findGt_some_sfx {l r : List Char} (h : findGt l = some r) : r <:+ l := by
  induction l with
  | nil => simp [findGt] at h
  | cons c cs ih =>
    simp only [findGt] at h
    split at h
    · simp only [Option.some.injEq] at h
      subst h
      exact ⟨[c], rfl⟩
    · split at h
      · simp at h
      · exact (ih h).trans ⟨[c], rfl⟩

theorem tw_stripTags_pfx (l : List Char) :
    (stripTags l).takeWhile notSpace <+: l.takeWhile notSpace := by
  induction l with
  | nil =>
    rw [stripTags_nil]
  | cons c cs ih =>
    by_cases hc : c = '<'
    · cases hg : findGt cs with
      | some rest =>
        rw [stripTags_cons_some hc hg, List.takeWhile_cons, if_neg (by decide)]
        exact ⟨_, rfl⟩
      | none =>
        rw [stripTags_cons_keep (Or.inr hg), List.takeWhile_cons, List.takeWhile_cons]
        by_cases hcs : notSpace c
        · rw [if_pos hcs, if_pos hcs]
          exact pfx_cons ih
        · rw [if_neg hcs, if_neg hcs]
    · rw [stripTags_cons_keep (Or.inl hc), List.takeWhile_cons, List.takeWhile_cons]
      by_cases hcs : notSpace c
      · rw [if_pos hcs, if_pos hcs]
        exact pfx_cons ih
      · rw [if_neg hcs, if_neg hcs]

theorem words_stripTags_cover : ∀ (l : List Char),
    ∀ w ∈ pySplit (stripTags l), ∃ W ∈ pySplit l, w <:+: W := by
  apply strongLengthRec
  intro l ih w hw
  cases l with
  | nil =>
    rw [stripTags_nil, pySplit_nil] at hw
    exact absurd hw (List.not_mem_nil w)
  | cons c cs =>
    have hkeep : ∀ (hk : c ≠ '<' ∨ findGt cs = none), ∃ W ∈ pySplit (c :: cs), w <:+: W := by
      intro hk
      rw [stripTags_cons_keep hk] at hw
      by_cases hcsp : pyIsSpace c
      · rw [pySplit_cons_space hcsp] at hw
        obtain ⟨W1, hW1, hw1⟩ := ih cs (by simp) w hw
        obtain ⟨W2, hW2, hw2⟩ := words_cons_cover c cs W1 hW1
        exact ⟨W2, hW2, hw1.trans hw2.isInfix⟩
      · rw [pySplit_cons_word hcsp] at hw
        rcases List.mem_cons.mp hw with rfl | hw
        · refine ⟨c :: cs.takeWhile notSpace, ?_, (pfx_cons (tw_stripTags_pfx cs)).isInfix⟩
          rw [pySplit_cons_word hcsp]
          simp
        · obtain ⟨W1, hW1, hw1⟩ := words_sfx_cover (stripTags cs)
            ((stripTags cs).dropWhile notSpace) (List.dropWhile_suffix notSpace) w hw
          obtain ⟨W2, hW2, hw2⟩ := ih cs (by simp) W1 hW1
          obtain ⟨W3, hW3, hw3⟩ := words_cons_cover c cs W2 hW2
          exact ⟨W3, hW3, (hw1.trans hw2).trans hw3.isInfix⟩
    by_cases hc : c = '<'
    · cases hg : findGt cs with
      | some rest =>
        rw [stripTags_cons_some hc hg] at hw
        rw [pySplit_cons_space (by decide)] at hw
        have hrl : rest.length < (c :: cs).length := by
          have := findGt_some_length hg
          simp only [List.length_cons]
          omega
        obtain ⟨W1, hW1, hw1⟩ := ih rest hrl w hw
        obtain ⟨W2, hW2, hw2⟩ := words_sfx_cover cs rest (findGt_some_sfx hg) W1 hW1
        obtain ⟨W3, hW3, hw3⟩ := words_cons_cover c cs W2 hW2
        exact ⟨W3, hW3, (hw1.trans hw2).trans hw3.isInfix⟩
      | none => exact hkeep (Or.inr hg)
    · exact hkeep (Or.inl hc)

theorem tw_map_pfx {g : Char → Char} (hg : ∀ c, g c = c ∨ g c = ' ') :
    ∀ l : List Char, (l.map g).takeWhile notSpace <+: l.takeWhile notSpace := by
  intro l
  induction l with
  | nil => rw [List.map_nil]
  | cons c cs ih =>
    rw [List.map_cons, List.takeWhile_cons, List.takeWhile_cons]
    by_cases hgc : pyIsSpace (g c)
    · rw [if_neg (by simp [notSpace, hgc])]
      exact ⟨_, rfl⟩
    · have hgcc : g c = c := by
        rcases hg c with h | h
        · exact h
        · rw [h] at hgc
          exact absurd (by decide) hgc
      rw [if_pos (by simp [notSpace, hgc]), hgcc,
        if_pos (by simp [notSpace, hgcc ▸ hgc])]
      exact pfx_cons ih

theorem words_map_cover {g : Char → Char} (hg : ∀ c, g c = c ∨ g c = ' ') :
    ∀ (l : List Char), ∀ w ∈ pySplit (l.map g), ∃ W ∈ pySplit l, w <:+: W := by
  apply strongLengthRec
  intro l ih w hw
  cases l with
  | nil =>
    rw [List.map_nil, pySplit_nil] at hw
    exact absurd hw (List.not_mem_nil w)
  | cons c cs =>
    rw [List.map_cons] at hw
    by_cases hgc : pyIsSpace (g c)
    · rw [pySplit_cons_space hgc] at hw
      obtain ⟨W1, hW1, hw1⟩ := ih cs (by simp) w hw
      obtain ⟨W2, hW2, hw2⟩ := words_cons_cover c cs W1 hW1
      exact ⟨W2, hW2, hw1.trans hw2.isInfix⟩
    · have hgcc : g c = c := by
        rcases hg c with h | h
        · exact h
        · rw [h] at hgc
          exact absurd (by decide) hgc
      have hcsp : ¬pyIsSpace c := by
        rw [← hgcc]
        exact hgc
      rw [pySplit_cons_word hgc] at hw
      rcases List.mem_cons.mp hw with rfl | hw
      · refine ⟨c :: cs.takeWhile notSpace, ?_, ?_⟩
        · rw [pySplit_cons_word hcsp]
          simp
        · rw [hgcc]
          exact (pfx_cons (tw_map_pfx hg cs)).isInfix
      · obtain ⟨W1, hW1, hw1⟩ := words_sfx_cover (cs.map g)
          ((cs.map g).dropWhile notSpace) (List.dropWhile_suffix notSpace) w hw
        obtain ⟨W2, hW2, hw2⟩ := ih cs (by simp) W1 hW1
        obtain ⟨W3, hW3, hw3⟩ := words_cons_cover c cs W2 hW2
        exact ⟨W3, hW3, (hw1.trans hw2).trans hw3.isInfix⟩

theorem replaceNonAlpha_pointwise :
    ∀ c, (if c.isAlpha || pyIsSpace c then c else ' ') = c ∨
      (if c.isAlpha || pyIsSpace c then c else ' ') = ' ' := by
  intro c
  by_cases h : c.isAlpha || pyIsSpace c
  · left
    rw [if_pos h]
  · right
    rw [if_neg h]

/-! ### Whitespace collapsing and trimming do not change the words -/

theorem tw_dw_collapseWs : ∀ l : List Char,
    (collapseWs l).takeWhile notSpace = l.takeWhile notSpace ∧
    (collapseWs l).dropWhile notSpace = collapseWs (l.dropWhile notSpace) := by
  intro l
  induction l with
  | nil => exact ⟨rfl, rfl⟩
  | cons c cs ih =>
    by_cases hc : pyIsSpace c
    · rw [collapseWs_cons_space hc]
      constructor
      · rw [List.takeWhile_cons, if_neg (by decide), List.takeWhile_cons,
          if_neg (by simp [notSpace, hc])]
      · rw [List.dropWhile_cons, if_neg (by decide), List.dropWhile_cons,
          if_neg (by simp [notSpace, hc]), collapseWs_cons_space hc]
    · rw [collapseWs_cons_keep hc]
      have hns : notSpace c = true := notSpace_true_iff.mpr hc
      constructor
      · rw [List.takeWhile_cons, if_pos hns, List.takeWhile_cons, if_pos hns, ih.1]
      · rw [List.dropWhile_cons, if_pos hns, List.dropWhile_cons, if_pos hns, ih.2]

theorem pySplit_dropSpaces : ∀ l : List Char,
    pySplit (l.dropWhile pyIsSpace) = pySplit l := by
  intro l
  induction l with
  | nil => rfl
  | cons c cs ih =>
    by_cases hc : pyIsSpace c
    · rw [List.dropWhile_cons, if_pos hc, ih, pySplit_cons_space hc]
    · rw [List.dropWhile_cons, if_neg hc]

theorem pySplit_collapseWs : ∀ l : List Char, pySplit (collapseWs l) = pySplit l := by
  apply strongLengthRec
  intro l ih
  cases l with
  | nil => rfl
  | cons c cs =>
    by_cases hc : pyIsSpace c
    · have hd : (cs.dropWhile pyIsSpace).length ≤ cs.length :=
        (List.dropWhile_sublist pyIsSpace).length_le
      rw [collapseWs_cons_space hc, pySplit_cons_space (by decide),
        ih (cs.dropWhile pyIsSpace) (by simp; omega), pySplit_dropSpaces,
        pySplit_cons_space hc]
    · have hd : (cs.dropWhile notSpace).length ≤ cs.length :=
        (List.dropWhile_sublist notSpace).length_le
      rw [collapseWs_cons_keep hc, pySplit_cons_word hc, (tw_dw_collapseWs cs).1,
        (tw_dw_collapseWs cs).2, ih (cs.dropWhile notSpace) (by simp; omega),
        pySplit_cons_word hc]

theorem pySplit_all_space {s : List Char} (hs : ∀ c ∈ s, pyIsSpace c = true) :
    pySplit s = [] := by
  induction s with
  | nil => rfl
  | cons c cs ih =>
    rw [pySplit_cons_space (hs c (by simp))]
    exact ih fun x hx => hs x (by simp [hx])

theorem tw_append_space {cs s : List Char} (hs : ∀ c ∈ s, pyIsSpace c = true) :
    (cs ++ s).takeWhile notSpace = cs.takeWhile notSpace := by
  induction cs with
  | nil =>
    cases s with
    | nil => rfl
    | cons c r =>
      simp only [List.nil_append, List.takeWhile_nil]
      rw [List.takeWhile_cons, if_neg (by simp [notSpace, hs c (by simp)])]
  | cons c cs' ih =>
    rw [List.cons_append, List.takeWhile_cons, List.takeWhile_cons]
    by_cases hc : notSpace c
    · rw [if_pos hc, if_pos hc, ih]
    · rw [if_neg hc, if_neg hc]

theorem dw_append_space {cs s : List Char} (hs : ∀ c ∈ s, pyIsSpace c = true) :
    (cs ++ s).dropWhile notSpace = cs.dropWhile notSpace ++ s ∨
    (cs.dropWhile notSpace = [] ∧ (cs ++ s).dropWhile notSpace = s) := by
  induction cs with
  | nil =>
    right
    refine ⟨rfl, ?_⟩
    cases s with
    | nil => rfl
    | cons c r =>
      rw [List.nil_append, List.dropWhile_cons, if_neg (by simp [notSpace, hs c (by simp)])]
  | cons c cs' ih =>
    rw [List.cons_append, List.dropWhile_cons, List.dropWhile_cons]
    by_cases hc : notSpace c
    · rw [if_pos hc, if_pos hc]
      exact ih
    · rw [if_neg hc, if_neg hc]
      left
      rfl

theorem pySplit_append_space : ∀ (x : List Char) {s : List Char},
    (∀ c ∈ s, pyIsSpace c = true) → pySplit (x ++ s) = pySplit x := by
  apply strongLengthRec
    (P := fun x => ∀ {s : List Char}, (∀ c ∈ s, pyIsSpace c = true) →
      pySplit (x ++ s) = pySplit x)
  intro x ih s hs
  cases x with
  | nil =>
    rw [List.nil_append, pySplit_nil]
    exact pySplit_all_space hs
  | cons c cs =>
    rw [List.cons_append]
    by_cases hc : pyIsSpace c
    · rw [pySplit_cons_space hc, pySplit_cons_space hc]
      exact ih cs (by simp) hs
    · rw [pySplit_cons_word hc, pySplit_cons_word hc, tw_append_space hs]
      rcases @dw_append_space cs s hs with h | ⟨h1, h2⟩
      · have hd : (cs.dropWhile notSpace).length ≤ cs.length :=
          (List.dropWhile_sublist notSpace).length_le
        rw [h, ih (cs.dropWhile notSpace) (by simp; omega) hs]
      · rw [h2, h1, pySplit_nil]
        exact congrArg _ (pySplit_all_space hs)

theorem d1_decomp (l : List Char) :
    l.dropWhile pyIsSpace =
      pyStrip l ++ ((l.dropWhile pyIsSpace).reverse.takeWhile pyIsSpace).reverse := by
  conv_lhs => rw [← List.reverse_reverse (l.dropWhile pyIsSpace),
    ← List.takeWhile_append_dropWhile pyIsSpace (l.dropWhile pyIsSpace).reverse]
  rw [List.reverse_append]
  rfl

theorem pySplit_pyStrip (l : List Char) : pySplit (pyStrip l) = pySplit l := by
  have hs : ∀ c ∈ ((l.dropWhile pyIsSpace).reverse.takeWhile pyIsSpace).reverse,
      pyIsSpace c = true := by
    intro c hc
    rw [List.mem_reverse] at hc
    exact List.mem_takeWhile_imp hc
  calc pySplit (pyStrip l)
      = pySplit (pyStrip l ++ ((l.dropWhile pyIsSpace).reverse.takeWhile pyIsSpace).reverse) :=
        (pySplit_append_space (pyStrip l) hs).symm
    _ = pySplit (l.dropWhile pyIsSpace) := by rw [← d1_decomp]
    _ = pySplit l := pySplit_dropSpaces l

/-! ### Character classes: lowercasing and the cleaned alphabet -/

theorem charLe_iff (a b : Char) : a ≤ b ↔ a.toNat ≤ b.toNat := Iff.rfl

theorem toNat_ofNat_valid {n : Nat} (h : n.isValidChar) : (Char.ofNat n).toNat = n := by
  unfold Char.ofNat
  rw [dif_pos h]
  rfl

theorem toLower_toNat (c : Char) :
    ((Char.toLower c).toNat = c.toNat ∧ ¬(65 ≤ c.toNat ∧ c.toNat ≤ 90)) ∨
    ((Char.toLower c).toNat = c.toNat + 32 ∧ 65 ≤ c.toNat ∧ c.toNat ≤ 90) := by
  unfold Char.toLower
  by_cases h : c.toNat ≥ 65 ∧ c.toNat ≤ 90
  · right
    rw [if_pos h]
    have hv : (c.toNat + 32).isValidChar := by
      left
      omega
    exact ⟨toNat_ofNat_valid hv, h.1, h.2⟩
  · left
    rw [if_neg h]
    exact ⟨rfl, h⟩

theorem isUpper_iff (c : Char) : c.isUpper = true ↔ 65 ≤ c.toNat ∧ c.toNat ≤ 90 := by
  unfold Char.isUpper
  rw [Bool.and_eq_true]
  simp only [decide_eq_true_eq]
  exact Iff.rfl

theorem isLower_iff (c : Char) : c.isLower = true ↔ 97 ≤ c.toNat ∧ c.toNat ≤ 122 := by
  unfold Char.isLower
  rw [Bool.and_eq_true]
  simp only [decide_eq_true_eq]
  exact Iff.rfl

theorem toLower_isUpper_false (c : Char) : (Char.toLower c).isUpper = false := by
  rw [Bool.eq_false_iff]
  intro hu
  rw [isUpper_iff] at hu
  rcases toLower_toNat c with ⟨he, hn⟩ | ⟨he, h1, h2⟩
  · rw [he] at hu
    exact hn hu
  · rw [he] at hu
    omega

theorem lowerOrSpace_toNat {c : Char} (h : lowerOrSpace c) :
    (97 ≤ c.toNat ∧ c.toNat ≤ 122) ∨ c.toNat = 32 := by
  rcases h with ⟨h1, h2⟩ | rfl
  · left
    exact ⟨(charLe_iff 'a' c).mp h1, (charLe_iff c 'z').mp h2⟩
  · right
    rfl

theorem toLower_fix {c : Char} (h : lowerOrSpace c) : Char.toLower c = c := by
  unfold Char.toLower
  rw [if_neg]
  have := lowerOrSpace_toNat h
  omega

theorem lowerOrSpace_isAlpha_or_space {c : Char} (h : lowerOrSpace c) :
    c.isAlpha = true ∨ pyIsSpace c = true := by
  rcases h with ⟨h1, h2⟩ | rfl
  · left
    unfold Char.isAlpha
    rw [Bool.or_eq_true]
    right
    exact isLower_iff c |>.mpr ⟨(charLe_iff 'a' c).mp h1, (charLe_iff c 'z').mp h2⟩
  · right
    decide

theorem lowerOrSpace_ne_lt {c : Char} (h : lowerOrSpace c) : c ≠ '<' := by
  intro hc
  have := lowerOrSpace_toNat h
  rw [hc] at this
  revert this
  decide

/-! ### Character membership through the cleaning stages -/

theorem matchUrlAt_some_drop {l r : List Char} (h : matchUrlAt l = some r) :
    ∃ n, r = l.drop n := by
  unfold matchUrlAt at h
  split at h
  · split at h
    · simp at h
    · simp only [Option.some.injEq] at h
      exact ⟨4 + ((l.drop 4).takeWhile notSpace).length, by rw [← h, List.drop_drop]⟩
  · split at h
    · split at h
      · simp at h
      · simp only [Option.some.injEq] at h
        exact ⟨3 + ((l.drop 3).takeWhile notSpace).length, by rw [← h, List.drop_drop]⟩
    · simp at h

theorem mem_stripUrls_sub : ∀ (l : List Char), ∀ c ∈ stripUrls l, c = ' ' ∨ c ∈ l := by
  apply strongLengthRec
  intro l ih c hc
  cases l with
  | nil =>
    rw [stripUrls_nil] at hc
    exact absurd hc (List.not_mem_nil c)
  | cons a cs =>
    cases hm : matchUrlAt (a :: cs) with
    | some rest =>
      rw [stripUrls_cons_some hm] at hc
      rcases List.mem_cons.mp hc with rfl | hc
      · exact Or.inl rfl
      · rcases ih rest (matchUrlAt_some_length hm) c hc with h | h
        · exact Or.inl h
        · obtain ⟨n, rfl⟩ := matchUrlAt_some_drop hm
          exact Or.inr ((List.drop_suffix n (a :: cs)).mem h)
    | none =>
      rw [stripUrls_cons_none hm] at hc
      rcases List.mem_cons.mp hc with rfl | hc
      · exact Or.inr (by simp)
      · rcases ih cs (by simp) c hc with h | h
        · exact Or.inl h
        · exact Or.inr (by simp [h])

theorem mem_stripTags_sub : ∀ (l : List Char), ∀ c ∈ stripTags l, c = ' ' ∨ c ∈ l := by
  apply strongLengthRec
  intro l ih c hc
  cases l with
  | nil =>
    rw [stripTags_nil] at hc
    exact absurd hc (List.not_mem_nil c)
  | cons a cs =>
    have hkeep : ∀ (hk : a ≠ '<' ∨ findGt cs = none), c = ' ' ∨ c ∈ a :: cs := by
      intro hk
      rw [stripTags_cons_keep hk] at hc
      rcases List.mem_cons.mp hc with rfl | hc
      · exact Or.inr (by simp)
      · rcases ih cs (by simp) c hc with h | h
        · exact Or.inl h
        · exact Or.inr (by simp [h])
    by_cases ha : a = '<'
    · cases hg : findGt cs with
      | some rest =>
        rw [stripTags_cons_some ha hg] at hc
        rcases List.mem_cons.mp hc with rfl | hc
        · exact Or.inl rfl
        · rcases ih rest (by
              have := findGt_some_length hg
              simp only [List.length_cons]
              omega) c hc with h | h
          · exact Or.inl h
          · exact Or.inr (((findGt_some_sfx hg).trans ⟨[a], rfl⟩).mem h)
      | none => exact hkeep (Or.inr hg)
    · exact hkeep (Or.inl ha)

theorem mem_collapseWs_sub : ∀ (l : List Char), ∀ c ∈ collapseWs l,
    c = ' ' ∨ (c ∈ l ∧ pyIsSpace c = false) := by
  apply strongLengthRec
  intro l ih c hc
  cases l with
  | nil =>
    rw [collapseWs_nil] at hc
    exact absurd hc (List.not_mem_nil c)
  | cons a cs =>
    by_cases ha : pyIsSpace a
    · rw [collapseWs_cons_space ha] at hc
      rcases List.mem_cons.mp hc with rfl | hc
      · exact Or.inl rfl
      · have hd : (cs.dropWhile pyIsSpace).length ≤ cs.length :=
          (List.dropWhile_sublist pyIsSpace).length_le
        rcases ih (cs.dropWhile pyIsSpace) (by simp; omega) c hc with h | ⟨h1, h2⟩
        · exact Or.inl h
        · exact Or.inr ⟨by simp [(List.dropWhile_sublist pyIsSpace).mem h1], h2⟩
    · rw [collapseWs_cons_keep ha] at hc
      rcases List.mem_cons.mp hc with rfl | hc
      · exact Or.inr ⟨by simp, by simpa using ha⟩
      · rcases ih cs (by simp) c hc with h | ⟨h1, h2⟩
        · exact Or.inl h
        · exact Or.inr ⟨by simp [h1], h2⟩

theorem mem_pyStrip_sub {l : List Char} {c : Char} (h : c ∈ pyStrip l) : c ∈ l := by
  unfold pyStrip at h
  rw [List.mem_reverse] at h
  have h1 := (List.dropWhile_sublist (l := (l.dropWhile pyIsSpace).reverse) pyIsSpace).mem h
  rw [List.mem_reverse] at h1
  exact (List.dropWhile_sublist pyIsSpace).mem h1

theorem mem_replaceNonAlpha_sub {l : List Char} {c : Char} (h : c ∈ replaceNonAlpha l) :
    c = ' ' ∨ (c ∈ l ∧ (c.isAlpha = true ∨ pyIsSpace c = true)) := by
  unfold replaceNonAlpha at h
  rw [List.mem_map] at h
  obtain ⟨c₀, hc₀, heq⟩ := h
  by_cases hk : c₀.isAlpha || pyIsSpace c₀
  · rw [if_pos hk] at heq
    subst heq
    exact Or.inr ⟨hc₀, by simpa using hk⟩
  · rw [if_neg hk] at heq
    exact Or.inl heq.symm

theorem basic_clean_chars (s : List Char) : ∀ c ∈ basic_clean s, lowerOrSpace c := by
  intro c hc
  have h1 := mem_pyStrip_sub hc
  rcases mem_collapseWs_sub _ c h1 with rfl | ⟨h2, hns⟩
  · exact Or.inr rfl
  · rcases mem_replaceNonAlpha_sub h2 with rfl | ⟨h3, halpha⟩
    · exact Or.inr rfl
    · rcases halpha with halpha | hsp
      · rcases mem_stripTags_sub _ c h3 with rfl | h4
        · exact Or.inr rfl
        · rcases mem_stripUrls_sub _ c h4 with rfl | h5
          · exact Or.inr rfl
          · rw [List.mem_map] at h5
            obtain ⟨c₀, _, rfl⟩ := h5
            have hup := toLower_isUpper_false c₀
            unfold Char.isAlpha at halpha
            rw [Bool.or_eq_true, hup] at halpha
            simp only [Bool.false_eq_true, false_or] at halpha
            rw [isLower_iff] at halpha
            exact Or.inl ⟨(charLe_iff 'a' _).mpr halpha.1, (charLe_iff _ 'z').mpr halpha.2⟩
      · rw [hsp] at hns
        simp at hns

/-! ### Joined word lists are fixed points of every cleaning stage -/

theorem unwords_two {w v : List Char} {vs : List (List Char)} :
    unwords (w :: v :: vs) = w ++ ' ' :: unwords (v :: vs) := rfl

theorem tw_of_word {w : List Char} (hw : ∀ c ∈ w, pyIsSpace c = false) :
    w.takeWhile notSpace = w ∧ w.dropWhile notSpace = [] := by
  induction w with
  | nil => exact ⟨rfl, rfl⟩
  | cons c w' ih =>
    have hc : notSpace c = true := by simp [notSpace, hw c (by simp)]
    have ih' := ih fun x hx => hw x (by simp [hx])
    rw [List.takeWhile_cons, if_pos hc, List.dropWhile_cons, if_pos hc, ih'.1]
    exact ⟨rfl, ih'.2⟩

theorem tw_word_sep {w r : List Char} (hw : ∀ c ∈ w, pyIsSpace c = false) :
    (w ++ ' ' :: r).takeWhile notSpace = w ∧
    (w ++ ' ' :: r).dropWhile notSpace = ' ' :: r := by
  induction w with
  | nil =>
    rw [List.nil_append, List.takeWhile_cons, if_neg (by decide),
      List.dropWhile_cons, if_neg (by decide)]
    exact ⟨rfl, rfl⟩
  | cons c w' ih =>
    have hc : notSpace c = true := by simp [notSpace, hw c (by simp)]
    have ih' := ih fun x hx => hw x (by simp [hx])
    rw [List.cons_append, List.takeWhile_cons, if_pos hc, List.dropWhile_cons,
      if_pos hc, ih'.1]
    exact ⟨rfl, ih'.2⟩

theorem pySplit_unwords {ws : List (List Char)}
    (h : ∀ w ∈ ws, w ≠ [] ∧ ∀ c ∈ w, pyIsSpace c = false) :
    pySplit (unwords ws) = ws := by
  induction ws with
  | nil => rfl
  | cons w ws ih =>
    obtain ⟨hne, hchars⟩ := h w (by simp)
    cases ws with
    | nil =>
      show pySplit w = [w]
      cases w with
      | nil => exact absurd rfl hne
      | cons c w' =>
        have hc : ¬pyIsSpace c := by simpa using hchars c (by simp)
        have ht := tw_of_word (w := w') fun x hx => hchars x (by simp [hx])
        rw [pySplit_cons_word hc, ht.1, ht.2, pySplit_nil]
    | cons v vs =>
      rw [unwords_two]
      cases w with
      | nil => exact absurd rfl hne
      | cons c w' =>
        have hc : ¬pyIsSpace c := by simpa using hchars c (by simp)
        have hsep := tw_word_sep (w := w') (r := unwords (v :: vs))
          fun x hx => hchars x (by simp [hx])
        rw [List.cons_append, pySplit_cons_word hc, hsep.1, hsep.2,
          pySplit_cons_space (by decide), ih fun u hu => h u (by simp [hu])]

theorem collapseWs_word_append {w r : List Char} (hw : ∀ c ∈ w, pyIsSpace c = false) :
    collapseWs (w ++ r) = w ++ collapseWs r := by
  induction w with
  | nil => rfl
  | cons c w' ih =>
    have hc : ¬pyIsSpace c := by simpa using hw c (by simp)
    rw [List.cons_append, collapseWs_cons_keep hc, ih fun x hx => hw x (by simp [hx]),
      List.cons_append]

theorem unwords_head_nonspace {v : List Char} {vs : List (List Char)} (hv : v ≠ [])
    (hc : ∀ c ∈ v, pyIsSpace c = false) :
    ∀ c, (unwords (v :: vs)).head? = some c → pyIsSpace c = false := by
  intro c h
  cases v with
  | nil => exact absurd rfl hv
  | cons a v' =>
    cases vs with
    | nil =>
      simp only [unwords, List.head?_cons, Option.some.injEq] at h
      subst h
      exact hc _ (by simp)
    | cons u us =>
      rw [unwords_two, List.cons_append, List.head?_cons] at h
      injection h with h
      subst h
      exact hc _ (by simp)

theorem collapseWs_unwords {ws : List (List Char)}
    (h : ∀ w ∈ ws, w ≠ [] ∧ ∀ c ∈ w, pyIsSpace c = false) :
    collapseWs (unwords ws) = unwords ws := by
  induction ws with
  | nil => rfl
  | cons w ws ih =>
    obtain ⟨hne, hchars⟩ := h w (by simp)
    cases ws with
    | nil =>
      show collapseWs w = w
      have := collapseWs_word_append (r := []) hchars
      simpa [collapseWs_nil] using this
    | cons v vs =>
      rw [unwords_two, collapseWs_word_append hchars, collapseWs_cons_space (by decide)]
      have hv := h v (by simp)
      have hdrop : (unwords (v :: vs)).dropWhile pyIsSpace = unwords (v :: vs) :=
        dropWhile_eq_self_of_head (unwords_head_nonspace hv.1 hv.2)
      rw [hdrop, ih fun u hu => h u (by simp [hu])]

theorem getLast?_mem : ∀ {l : List Char} {a : Char}, l.getLast? = some a → a ∈ l := by
  intro l
  induction l with
  | nil =>
    intro a h
    simp at h
  | cons c cs ih =>
    intro a h
    cases cs with
    | nil =>
      simp only [List.getLast?_singleton, Option.some.injEq] at h
      simp [h]
    | cons d ds =>
      rw [List.getLast?_cons_cons] at h
      exact List.mem_cons_of_mem c (ih h)

theorem getLast?_cons_ne {a : Char} {l : List Char} (hl : l ≠ []) :
    (a :: l).getLast? = l.getLast? := by
  cases l with
  | nil => exact absurd rfl hl
  | cons b bs => exact List.getLast?_cons_cons

theorem unwords_getLast_step {w U : List Char} (hU : U ≠ []) :
    (w ++ ' ' :: U).getLast? = U.getLast? := by
  rw [List.getLast?_append, getLast?_cons_ne hU]
  cases hg : U.getLast? with
  | none =>
    have := List.getLast?_isSome.mpr hU
    rw [hg] at this
    simp at this
  | some a => rfl

theorem unwords_getLast_nonspace : ∀ (ws : List (List Char)),
    (∀ w ∈ ws, w ≠ [] ∧ ∀ c ∈ w, pyIsSpace c = false) →
    ∀ c, (unwords ws).getLast? = some c → pyIsSpace c = false := by
  intro ws
  induction ws with
  | nil =>
    intro _ c h
    simp [unwords] at h
  | cons w ws ih =>
    intro h c hc
    cases ws with
    | nil =>
      exact (h w (by simp)).2 c (getLast?_mem hc)
    | cons v vs =>
      rw [unwords_two, unwords_getLast_step (unwords_ne_nil (by simp)
        fun u hu => (h u (by simp [hu])).1)] at hc
      exact ih (fun u hu => h u (by simp [hu])) c hc

theorem pyStrip_unwords {ws : List (List Char)}
    (h : ∀ w ∈ ws, w ≠ [] ∧ ∀ c ∈ w, pyIsSpace c = false) :
    pyStrip (unwords ws) = unwords ws := by
  cases ws with
  | nil => rfl
  | cons w ws' =>
    apply pyStrip_eq_self
    · exact unwords_head_nonspace (h w (by simp)).1 (h w (by simp)).2
    · exact unwords_getLast_nonspace (w :: ws') h

theorem stripTags_fix {t : List Char} (h : ∀ c ∈ t, c ≠ '<') : stripTags t = t := by
  induction t with
  | nil => exact stripTags_nil
  | cons c cs ih =>
    rw [stripTags_cons_keep (Or.inl (h c (by simp))), ih fun x hx => h x (by simp [hx])]

theorem replaceNonAlpha_fix {t : List Char}
    (h : ∀ c ∈ t, c.isAlpha = true ∨ pyIsSpace c = true) : replaceNonAlpha t = t := by
  induction t with
  | nil => rfl
  | cons c cs ih =>
    have ih' := ih fun x hx => h x (by simp [hx])
    show (if c.isAlpha || pyIsSpace c then c else ' ') :: replaceNonAlpha cs = c :: cs
    rw [if_pos (by rcases h c (by simp) with h' | h' <;> simp [h']), ih']

theorem map_toLower_fix {t : List Char} (h : ∀ c ∈ t, lowerOrSpace c) :
    t.map Char.toLower = t := by
  induction t with
  | nil => rfl
  | cons c cs ih =>
    rw [List.map_cons, toLower_fix (h c (by simp)), ih fun x hx => h x (by simp [hx])]

theorem words_chars_sub {l w : List Char} (hw : w ∈ pySplit l) {c : Char} (hc : c ∈ w) :
    c ∈ l :=
  (word_sub_ifx l w hw).sublist.mem hc

theorem mem_unwords : ∀ {ws : List (List Char)} {c : Char},
    c ∈ unwords ws → c = ' ' ∨ ∃ w ∈ ws, c ∈ w := by
  intro ws
  induction ws with
  | nil =>
    intro c hc
    simp [unwords] at hc
  | cons w ws ih =>
    intro c hc
    cases ws with
    | nil => exact Or.inr ⟨w, by simp, hc⟩
    | cons v vs =>
      rw [unwords_two, List.mem_append] at hc
      rcases hc with hc | hc
      · exact Or.inr ⟨w, by simp, hc⟩
      · rcases List.mem_cons.mp hc with rfl | hc
        · exact Or.inl rfl
        · rcases ih hc with h | ⟨u, hu, hcu⟩
          · exact Or.inl h
          · exact Or.inr ⟨u, by simp [hu], hcu⟩

/-! ### The cleaned text is safe for a second pass -/

theorem wordSafe_basic_clean (s : List Char) : wordSafe (basic_clean s) := by
  intro w hw
  unfold basic_clean at hw
  rw [pySplit_pyStrip, pySplit_collapseWs] at hw
  obtain ⟨W1, hW1, h2⟩ :=
    words_map_cover replaceNonAlpha_pointwise
      (stripTags (stripUrls (s.map Char.toLower))) w hw
  obtain ⟨W2, hW2, h3⟩ := words_stripTags_cover (stripUrls (s.map Char.toLower)) W1 hW1
  have hsafe : urlSafe W2 :=
    wordSafe_of_urlSafe (urlSafe_stripUrls (s.map Char.toLower)) W2 hW2
  exact urlSafe_infix hsafe (h2.trans h3)

theorem preprocess_text_eq (t : List Char) :
    preprocess_text t = remove_stopwords (basic_clean t) := by
  by_cases ht : t = []
  · subst ht
    rfl
  · unfold preprocess_text
    rw [if_neg ht]

theorem remove_stopwords_eq (t : List Char) :
    remove_stopwords t = unwords ((pySplit t).filter fun w => !STOP_WORDS.contains w) := by
  by_cases ht : t = []
  · subst ht
    rfl
  · unfold remove_stopwords
    rw [if_neg ht]

theorem preprocess_unwords_fix {F : List (List Char)}
    (hgood : ∀ w ∈ F, w ≠ [] ∧ ∀ c ∈ w, pyIsSpace c = false)
    (hchars : ∀ w ∈ F, ∀ c ∈ w, lowerOrSpace c)
    (hsafe : ∀ w ∈ F, urlSafe w)
    (hstop : ∀ w ∈ F, (!STOP_WORDS.contains w) = true) :
    preprocess_text (unwords F) = unwords F := by
  have hsplit : pySplit (unwords F) = F := pySplit_unwords hgood
  have huchars : ∀ c ∈ unwords F, lowerOrSpace c := by
    intro c hc
    rcases mem_unwords hc with rfl | ⟨w, hw, hcw⟩
    · exact Or.inr rfl
    · exact hchars w hw c hcw
  have hclean : basic_clean (unwords F) = unwords F := by
    unfold basic_clean
    rw [map_toLower_fix huchars,
      stripUrls_of_urlSafe (urlSafe_of_wordSafe fun w hw => by
        rw [hsplit] at hw
        exact hsafe w hw),
      stripTags_fix fun c hc => lowerOrSpace_ne_lt (huchars c hc),
      replaceNonAlpha_fix fun c hc => lowerOrSpace_isAlpha_or_space (huchars c hc),
      collapseWs_unwords hgood, pyStrip_unwords hgood]
  rw [preprocess_text_eq, hclean, remove_stopwords_eq, hsplit,
    List.filter_eq_self.mpr hstop]

/-- C3: the text normalizer is idempotent: running `preprocess_text` on its
own output returns that output unchanged, for every input string. -/
theorem preprocess_text_idem (s : List Char) :
    preprocess_text (preprocess_text s) = preprocess_text s := by
  rw [preprocess_text_eq s, remove_stopwords_eq]
  apply preprocess_unwords_fix
  · intro w hw
    exact pySplit_words_good _ w (List.mem_filter.mp hw).1
  · intro w hw c hc
    exact basic_clean_chars s c (words_chars_sub (List.mem_filter.mp hw).1 hc)
  · intro w hw
    exact wordSafe_basic_clean s w (List.mem_filter.mp hw).1
  · intro w hw
    exact (List.mem_filter.mp hw).2
